import Mathlib

/-!
A verification development for the Nitro package manager
(`src/core/formula.rs`, `src/core/resolver.rs`, `src/core/installer.rs`,
`src/core/package.rs`).  The Rust code is shallowly embedded: pure string
processing and list manipulation are translated directly; effectful steps
(network, filesystem, subprocesses) are abstracted as explicit outcome
parameters; the unspecified iteration order of Rust's `HashMap` is made an
explicit list parameter.  Machine integers (`usize`) are modelled as `Nat`
with explicit reduction modulo `2 ^ 64` at the two spots where the Rust
code mutates a counter.
-/

/-- Error type of the crate (`src/core/errors.rs`), restricted to the
constructors the embedded code can raise. -/
inductive NitroError where
  | PackageNotFound (msg : String)
  | FormulaParse (msg : String)
  | DependencyResolution (msg : String)
  | InstallationFailed (msg : String)
  | Other (msg : String)
deriving DecidableEq

/-- `Dependency` record (`src/core/formula.rs` lines 32-38). -/
structure Dependency where
  name : String
  version : Option String
  build_only : Bool
  optional : Bool
deriving DecidableEq

/-- `Source` record (`src/core/formula.rs` lines 25-30). -/
structure Source where
  url : String
  sha256 : String
  mirror : Option String
deriving DecidableEq

/-- `BinaryPackage` record (`src/core/formula.rs` lines 40-46). -/
structure BinaryPackage where
  platform : String
  arch : String
  url : String
  sha256 : String
deriving DecidableEq

/-- `Formula` record (`src/core/formula.rs` lines 7-23). -/
structure Formula where
  name : String
  version : String
  description : Option String
  homepage : Option String
  license : Option String
  sources : List Source
  dependencies : List Dependency
  build_dependencies : List Dependency
  optional_dependencies : List Dependency
  conflicts : List String
  install_script : Option String
  test_script : Option String
  caveats : Option String
  binary_packages : List BinaryPackage
deriving DecidableEq

/-! ## Dependency resolver (`src/core/resolver.rs`) -/

/-- The value space of Rust's `usize` on a 64-bit host. -/
def USIZE : Nat := 2 ^ 64

/-- The key set of the resolver's `graph` / `in_degree` / `formula_map`
hash maps: every formula name is inserted (`resolver.rs` lines 113-117). -/
def namesOf (fs : List Formula) : List String := fs.map Formula.name

/-- The edge list built by `topological_sort` (`resolver.rs` lines 120-127):
for every formula and every entry of its `dependencies` vector whose name is
a key of the graph, one edge `dep.name -> formula.name` is recorded, in
iteration order and with multiplicity.  `build_dependencies` and the
`optional` flag are not consulted. -/
def edgesOf (fs : List Formula) : List (String × String) :=
  fs.flatMap fun f =>
    (f.dependencies.filter fun d => (namesOf fs).contains d.name).map
      fun d => (d.name, f.name)

/-- The `formula_map` built at `resolver.rs` line 116: `HashMap::insert`
overwrites, so the last formula with a given name wins. -/
def fmapOf (fs : List Formula) (n : String) : Option Formula :=
  (fs.filter fun f => f.name == n).getLast?

/-- The adjacency vector `graph[n]` of `topological_sort`: the targets of
the recorded edges with source `n`, in insertion order. -/
def adjOf (fs : List Formula) (n : String) : List String :=
  (edgesOf fs).filterMap fun e => if e.1 == n then some e.2 else none

/-- The `in_degree[n]` counter after the edge-building loop: one `+= 1` per
recorded edge into `n`, on a `usize`. -/
def initDegOf (fs : List Formula) (n : String) : Nat :=
  ((edgesOf fs).countP fun e => e.2 == n) % USIZE

/-- The inner `for dependent in dependents` loop of Kahn's algorithm
(`resolver.rs` lines 145-153): each dependent's degree is decremented
(`usize` wrap-around on underflow) and pushed when the new degree is 0. -/
def processDeps : List String → (String → Nat) → List String →
    (String → Nat) × List String
  | [], deg, queue => (deg, queue)
  | d :: rest, deg, queue =>
    let deg' : String → Nat := fun m =>
      if m = d then (deg d + (USIZE - 1)) % USIZE else deg m
    let queue' := if deg' d = 0 then queue ++ [d] else queue
    processDeps rest deg' queue'

/-- The `while let Some(name) = queue.pop_front()` loop of
`topological_sort` (`resolver.rs` lines 140-154).  The loop terminates in
the Rust code; here it carries fuel, which `topological_sort` sets high
enough for every run that the loop itself would complete. -/
def kahnLoop (adj : String → List String) (fm : String → Option Formula) :
    Nat → List String → (String → Nat) → List Formula → List Formula
  | 0, _, _, sorted => sorted
  | _ + 1, [], _, sorted => sorted
  | fuel + 1, q :: qs, deg, sorted =>
    let sorted' := match fm q with
      | some f => sorted ++ [f]
      | none => sorted
    let p := processDeps (adj q) deg qs
    kahnLoop adj fm fuel p.2 p.1 sorted'

/-- `DependencyResolver::topological_sort` (`resolver.rs` lines 106-163).
`order` is the (unspecified) iteration order of the `in_degree` hash map in
the seeding loop at lines 134-138; the seeds are its degree-0 entries. -/
def topological_sort (fs : List Formula) (order : List String) :
    Except NitroError (List Formula) :=
  let sorted := kahnLoop (adjOf fs) (fmapOf fs) (fs.length + 1)
      (order.filter fun n => initDegOf fs n == 0) (initDegOf fs) []
  if sorted.length ≠ fs.length then
    .error (.DependencyResolution "Circular dependency detected")
  else
    .ok sorted

/-- `DependencyResolver::check_conflicts` (`resolver.rs` lines 89-104). -/
def check_conflicts (f : Formula) : List Formula → Except NitroError Unit
  | [] => .ok ()
  | r :: rest =>
    if f.conflicts.contains r.name then
      .error (.DependencyResolution (f.name ++ " conflicts with " ++ r.name))
    else if r.conflicts.contains f.name then
      .error (.DependencyResolution (r.name ++ " conflicts with " ++ f.name))
    else
      check_conflicts f rest

/-- Rust `str::replace` for a single-character pattern: every occurrence of
`c` is replaced by `r`. -/
def replaceCharStr (c : Char) (r : String) (s : String) : String :=
  ⟨s.data.flatMap fun x => if x = c then r.data else [x]⟩

/-- The `variations` vector of `DependencyResolver::resolve`
(`resolver.rs` lines 44-49). -/
def variationsOf (n : String) : List String :=
  [replaceCharStr '@' "at" n, replaceCharStr '-' "" n,
   replaceCharStr '_' "-" n, replaceCharStr '-' "_" n]

/-- The `found` loop over the name variations (`resolver.rs` lines 51-58):
the first variation that resolves wins. -/
def tryVariationsLoop (lookup : String → Option Formula) :
    List String → Option Formula
  | [] => none
  | v :: rest =>
    match lookup v with
    | some f => some f
    | none => tryVariationsLoop lookup rest

/-- The dependency lookup of `resolve` (`resolver.rs` lines 40-68): the
plain name first, then the variations.  `lookup` abstracts
`FormulaManager::get_formula` (tap search + parse, filesystem-backed);
`none` is its error case. -/
def lookupDep (lookup : String → Option Formula) (n : String) :
    Option Formula :=
  match lookup n with
  | some f => some f
  | none => tryVariationsLoop lookup (variationsOf n)

/-- The `while let Some(dep) = queue.pop_front()` expansion loop of
`resolve` (`resolver.rs` lines 33-81), with fuel (the Rust loop terminates
because the universe of names reachable through `lookup` is finite;
`none` means the fuel ran out before the queue drained). -/
def resolveExpandLoop (lookup : String → Option Formula) :
    Nat → List Dependency → List String → List Formula →
    Option (Except NitroError (List Formula))
  | 0, _, _, _ => none
  | _ + 1, [], _, resolved => some (.ok resolved)
  | fuel + 1, d :: qs, seen, resolved =>
    if seen.contains d.name then
      resolveExpandLoop lookup fuel qs seen resolved
    else
      let seen' := seen ++ [d.name]
      match lookupDep lookup d.name with
      | none => resolveExpandLoop lookup fuel qs seen' resolved
      | some f =>
        match check_conflicts f resolved with
        | .error e => some (.error e)
        | .ok _ =>
          let subs := f.dependencies.filter fun s =>
            !s.optional && !seen'.contains s.name
          resolveExpandLoop lookup fuel (qs ++ subs) seen' (resolved ++ [f])

/-- The initial queue of `resolve` (`resolver.rs` lines 20-30):
the root's non-optional runtime dependencies, then all of its build
dependencies. -/
def initialQueueOf (root : Formula) : List Dependency :=
  root.dependencies.filter (fun d => !d.optional) ++ root.build_dependencies

/-- The expansion phase of `DependencyResolver::resolve`
(`resolver.rs` lines 15-81). -/
def resolveExpand (fuel : Nat) (lookup : String → Option Formula)
    (root : Formula) : Option (Except NitroError (List Formula)) :=
  resolveExpandLoop lookup fuel (initialQueueOf root) [] []

/-- `DependencyResolver::resolve` (`resolver.rs` lines 15-87): expansion
followed by `topological_sort`.  `order` is threaded through to the hash
map seeding loop of the sort. -/
def resolve (fuel : Nat) (lookup : String → Option Formula) (root : Formula)
    (order : List String) : Option (Except NitroError (List Formula)) :=
  match resolveExpand fuel lookup root with
  | none => none
  | some (.error e) => some (.error e)
  | some (.ok fs) => some (topological_sort fs order)

/-- A faithful iteration order for the `in_degree` hash map: some
permutation of the key set, with each key exactly once. -/
def orderGood (order : List String) (fs : List Formula) : Prop :=
  order.Nodup ∧ (∀ n ∈ namesOf fs, n ∈ order) ∧
    ∀ n ∈ order, n ∈ namesOf fs

/-- `c` is a cycle of the dependency graph that `topological_sort` builds
over `fs`: nonempty, and each element has a recorded edge to its cyclic
successor. -/
def IsCycle (fs : List Formula) (c : List String) : Prop :=
  c ≠ [] ∧ ∀ e ∈ c.zip (c.rotate 1), e ∈ edgesOf fs

/-! ## Formula parser (`src/core/formula.rs`)

The Rust parser works by matching a handful of fixed regular expressions
against the file content.  Each regex is embedded as a hand-rolled scanner
over `List Char` with the same leftmost-match semantics (`scanFirst` tries
the pattern anchored at every position, left to right; the individual
patterns are deterministic because every quantifier in them is followed by
a character it cannot consume).  Character classes model the ASCII meaning
of the regex classes (`\w`, `\s`, `[a-fA-F0-9]`). -/

/-- The regex class `\s` (exact on ASCII input). -/
def isWsChar (c : Char) : Bool := c.isWhitespace

/-- The regex class `\w` (exact on ASCII input). -/
def isWordChar (c : Char) : Bool := c.isAlphanum || c = '_'

/-- The regex class `[a-fA-F0-9]`. -/
def isHexChar (c : Char) : Bool :=
  c.isDigit || ('a' ≤ c && c ≤ 'f') || ('A' ≤ c && c ≤ 'F')

/-- Match a literal, returning the rest. -/
def chompLit : List Char → List Char → Option (List Char)
  | [], l => some l
  | _ :: _, [] => none
  | p :: ps, c :: cs => if c = p then chompLit ps cs else none

/-- `\s+` (maximal munch; the following pattern characters of every use
site are never whitespace, so maximal munch equals backtracking). -/
def chompWs1 : List Char → Option (List Char)
  | [] => none
  | c :: cs => if isWsChar c then some (cs.dropWhile isWsChar) else none

/-- `\s*` (maximal munch). -/
def chompWs (l : List Char) : List Char := l.dropWhile isWsChar

/-- `p+` for a character class `p`, maximal munch, returning the capture. -/
def chompSome (p : Char → Bool) (l : List Char) : Option (List Char × List Char) :=
  let tk := l.takeWhile p
  if tk.isEmpty then none else some (tk, l.drop tk.length)

/-- Exactly `n` characters of class `p`. -/
def chompExact (p : Char → Bool) : Nat → List Char → Option (List Char × List Char)
  | 0, l => some ([], l)
  | _ + 1, [] => none
  | n + 1, c :: cs =>
    if p c then (chompExact p n cs).map fun x => (c :: x.1, x.2) else none

/-- Leftmost-match driver: try the anchored pattern `m` at every position,
left to right (the semantics of `Regex::captures` for the deterministic
patterns used here). -/
def scanFirst (m : List Char → Option α) : List Char → Option α
  | [] => m []
  | c :: t =>
    match m (c :: t) with
    | some a => some a
    | none => scanFirst m t

/-- Non-overlapping iteration (`captures_iter`): after a match, continue
after its end; otherwise advance one position.  Fuel is the input length
plus one (each step consumes at least one character for the matchers used
here; the fuel is generous for them). -/
def scanIter (m : List Char → Option (α × List Char)) :
    Nat → List Char → List α
  | 0, _ => []
  | _ + 1, [] => []
  | fuel + 1, c :: t =>
    match m (c :: t) with
    | some (a, rest) => a :: scanIter m fuel rest
    | none => scanIter m fuel t

/-- Anchored matcher for `class\s+(\w+)\s*<\s*Formula`
(`formula.rs` line 211), returning the captured identifier. -/
def matchClassHeader (l : List Char) : Option String :=
  (chompLit "class".data l).bind fun l1 =>
  (chompWs1 l1).bind fun l2 =>
  (chompSome isWordChar l2).bind fun x =>
  (chompLit "<".data (chompWs x.2)).bind fun l3 =>
  (chompLit "Formula".data (chompWs l3)).map fun _ => String.mk x.1

/-- First position (if any) at which `pat` occurs as a substring
(Rust `str::find`, character-exact on ASCII). -/
def findSubstrIdx (pat : List Char) : List Char → Option Nat
  | [] => if pat.isPrefixOf ([] : List Char) then some 0 else none
  | c :: t =>
    if pat.isPrefixOf (c :: t) then some 0
    else (findSubstrIdx pat t).map (· + 1)

/-- ASCII-exact model of `str::to_lowercase`. -/
def lowerChars (l : List Char) : List Char := l.map Char.toLower

/-- The `formatted_version` computation (`formula.rs` lines 223-227):
insert a dot after the first character when the suffix has length at
least two. -/
def formatVersionPart (v : List Char) : List Char :=
  if v.length ≥ 2 then v.take 1 ++ '.' :: v.drop 1 else v

/-- The class-name-to-package-name conversion of `extract_class_name`
(`formula.rs` lines 216-232): split at the first occurrence of the literal
substring "AT" (no digit check), lowercase only the part before it, keep
the suffix's case, and insert a dot into the suffix. -/
def class_name_to_package (ident : String) : String :=
  match findSubstrIdx "AT".data ident.data with
  | some i =>
    String.mk (lowerChars (ident.data.take i) ++ '@' ::
      formatVersionPart (ident.data.drop (i + 2)))
  | none => String.mk (lowerChars ident.data)

/-- `FormulaParser::extract_class_name` (`formula.rs` lines 210-240). -/
def extract_class_name (content : String) : Except NitroError String :=
  match scanFirst matchClassHeader content.data with
  | some ident => .ok (class_name_to_package ident)
  | none => .error (.FormulaParse "Could not find formula class name")

/-- Anchored matcher for `<key>\s+"([^"]+)"` (the shape of the `desc`,
`homepage`, `url`, `version` and `revision` regexes; the `,?` tail of the
`url` regex affects neither the capture nor matching). -/
def matchKeyQuoted (key : List Char) (l : List Char) : Option String :=
  (chompLit key l).bind fun l1 =>
  (chompWs1 l1).bind fun l2 =>
  (chompLit ['"'] l2).bind fun l3 =>
  (chompSome (fun c => c ≠ '"') l3).bind fun x =>
  (chompLit ['"'] x.2).map fun _ => String.mk x.1

/-- `FormulaParser::extract_desc` (`formula.rs` lines 242-245). -/
def extract_desc (content : String) : Option String :=
  scanFirst (matchKeyQuoted "desc".data) content.data

/-- `FormulaParser::extract_homepage` (`formula.rs` lines 247-250). -/
def extract_homepage (content : String) : Option String :=
  scanFirst (matchKeyQuoted "homepage".data) content.data

/-- `FormulaParser::extract_url` (`formula.rs` lines 252-273).  The inner
git-tag probe only logs and is dropped. -/
def extract_url (content : String) : Except NitroError String :=
  match scanFirst (matchKeyQuoted "url".data) content.data with
  | some u => .ok u
  | none => .error (.FormulaParse "Could not find download URL")

/-- Pattern 1 of `extract_sha256`: `sha256\s+"([a-fA-F0-9]{64})"`. -/
def matchSha256Pat1 (l : List Char) : Option String :=
  (chompLit "sha256".data l).bind fun l1 =>
  (chompWs1 l1).bind fun l2 =>
  (chompLit ['"'] l2).bind fun l3 =>
  (chompExact isHexChar 64 l3).bind fun x =>
  (chompLit ['"'] x.2).map fun _ => String.mk x.1

/-- The regex class `["']`. -/
def isQuoteChar (c : Char) : Bool := c = '"' || c = '\''

/-- Pattern 2 of `extract_sha256`:
`sha256\s+["']([a-fA-F0-9]{64})["']` (the two quotes are independent). -/
def matchSha256Pat2 (l : List Char) : Option String :=
  (chompLit "sha256".data l).bind fun l1 =>
  (chompWs1 l1).bind fun l2 =>
  match l2 with
  | q :: l3 =>
    if isQuoteChar q then
      (chompExact isHexChar 64 l3).bind fun x =>
      match x.2 with
      | q' :: _ => if isQuoteChar q' then some (String.mk x.1) else none
      | [] => none
    else none
  | [] => none

/-- Pattern 3 of `extract_sha256`:
`sha256\s+:?\s*["']([a-fA-F0-9]{64})["']`. -/
def matchSha256Pat3 (l : List Char) : Option String :=
  (chompLit "sha256".data l).bind fun l1 =>
  (chompWs1 l1).bind fun l2 =>
  let l3 := match l2 with
    | ':' :: t => chompWs t
    | _ => chompWs l2
  match l3 with
  | q :: l4 =>
    if isQuoteChar q then
      (chompExact isHexChar 64 l4).bind fun x =>
      match x.2 with
      | q' :: _ => if isQuoteChar q' then some (String.mk x.1) else none
      | [] => none
    else none
  | [] => none

/-- `FormulaParser::extract_sha256` (`formula.rs` lines 275-294): the
three patterns are tried in order over the whole content — a `bottle do`
block is not excluded. -/
def extract_sha256 (content : String) : Except NitroError String :=
  match scanFirst matchSha256Pat1 content.data with
  | some s => .ok s
  | none =>
    match scanFirst matchSha256Pat2 content.data with
    | some s => .ok s
    | none =>
      match scanFirst matchSha256Pat3 content.data with
      | some s => .ok s
      | none => .error (.FormulaParse "Could not find SHA256 checksum")

/-- `(?:\.\d+)*`, maximal munch, with fuel (each round consumes at least
two characters). -/
def chompDotNumStar : Nat → List Char → List Char × List Char
  | 0, l => ([], l)
  | fuel + 1, l =>
    match l with
    | '.' :: rest =>
      match chompSome Char.isDigit rest with
      | some (ds, rest') =>
        let m := chompDotNumStar fuel rest'
        ('.' :: (ds ++ m.1), m.2)
      | none => ([], l)
    | _ => ([], l)

/-- `(\d+\.\d+(?:\.\d+)*)`, returning the capture and the rest. -/
def matchVerNum (l : List Char) : Option (List Char × List Char) :=
  (chompSome Char.isDigit l).bind fun a =>
  (chompLit ['.'] a.2).bind fun l2 =>
  (chompSome Char.isDigit l2).bind fun b =>
  let m := chompDotNumStar l2.length b.2
  some (a.1 ++ '.' :: (b.1 ++ m.1), m.2)

/-- `v?` before a digit sequence (a leading `v` is consumed if present;
backtracking cannot help because a digit is never `v`). -/
def chompOptV : List Char → List Char
  | 'v' :: t => t
  | l => l

/-- `/tags/v?(\d+\.\d+(?:\.\d+)*)` — pattern 1 of
`extract_version_from_url`. -/
def matchUrlVer1 (l : List Char) : Option String :=
  (chompLit "/tags/".data l).bind fun l1 =>
  (matchVerNum (chompOptV l1)).map fun x => String.mk x.1

/-- `download/v?(\d+\.\d+(?:\.\d+)*)` — pattern 2. -/
def matchUrlVer2 (l : List Char) : Option String :=
  (chompLit "download/".data l).bind fun l1 =>
  (matchVerNum (chompOptV l1)).map fun x => String.mk x.1

/-- `[-_/]v?(\d+\.\d+(?:\.\d+)*)` — pattern 3. -/
def matchUrlVer3 (l : List Char) : Option String :=
  match l with
  | c :: t =>
    if c = '-' || c = '_' || c = '/' then
      (matchVerNum (chompOptV t)).map fun x => String.mk x.1
    else none
  | [] => none

/-- `FormulaParser::extract_version_from_url`
(`formula.rs` lines 296-314): the three patterns in order, else the
literal "unknown". -/
def extract_version_from_url (url : String) : String :=
  match scanFirst matchUrlVer1 url.data with
  | some v => v
  | none =>
    match scanFirst matchUrlVer2 url.data with
    | some v => v
    | none =>
      match scanFirst matchUrlVer3 url.data with
      | some v => v
      | none => "unknown"

/-- `FormulaParser::extract_version_from_content`
(`formula.rs` lines 316-334): a `version` directive, else a `revision`
directive. -/
def extract_version_from_content (content : String) : Option String :=
  match scanFirst (matchKeyQuoted "version".data) content.data with
  | some v => some v
  | none => scanFirst (matchKeyQuoted "revision".data) content.data

/-- The optional `(?:\s*=>\s*:(\w+))?` tail of the `depends_on` regex. -/
def matchArrowTag (l : List Char) : Option (String × List Char) :=
  (chompLit "=>".data (chompWs l)).bind fun l1 =>
  (chompLit [':'] (chompWs l1)).bind fun l2 =>
  (chompSome isWordChar l2).map fun x => (String.mk x.1, x.2)

/-- Anchored matcher for
`depends_on\s+"([^"]+)"(?:\s*=>\s*:(\w+))?`, returning the captures and
the rest after the whole match (for `captures_iter` stepping). -/
def matchDependsOn (l : List Char) :
    Option ((String × Option String) × List Char) :=
  (chompLit "depends_on".data l).bind fun l1 =>
  (chompWs1 l1).bind fun l2 =>
  (chompLit ['"'] l2).bind fun l3 =>
  (chompSome (fun c => c ≠ '"') l3).bind fun x =>
  (chompLit ['"'] x.2).map fun l4 =>
  match matchArrowTag l4 with
  | some t => ((String.mk x.1, some t.1), t.2)
  | none => ((String.mk x.1, none), l4)

/-- `FormulaParser::extract_dependencies` (`formula.rs` lines 336-362):
each match becomes a `Dependency`; a `:build` tag routes it to the build
list.  (The Rust function returns `Result` but never fails.) -/
def extract_dependencies (content : String) :
    List Dependency × List Dependency :=
  let caps := scanIter matchDependsOn (content.data.length + 1) content.data
  caps.foldl
    (fun acc c =>
      let b := c.2 == some "build"
      let d : Dependency := ⟨c.1, none, b, false⟩
      if b then (acc.1, acc.2 ++ [d]) else (acc.1 ++ [d], acc.2))
    ([], [])

/-- `\s*\n` (greedy `\s*` then a required newline): the whitespace run must
contain a newline and is consumed through its last newline. -/
def chompWsToLastNl (l : List Char) : Option (List Char) :=
  let run := l.takeWhile isWsChar
  if run.contains '\n' then
    some ((run.reverse.takeWhile (fun c => c ≠ '\n')).reverse ++
      l.drop run.length)
  else none

/-- Does `\s*<lit>` match at this position?  (`\s*` maximal munch; the
literals used start with a non-whitespace character.) -/
def stopAtWsLit (lit : List Char) (l : List Char) : Bool :=
  (chompLit lit (chompWs l)).isSome

/-- The lazy `((?:.*\n)*?)` group: accumulate whole lines, stopping at the
first position where the stop pattern matches; fail if a line without a
terminating newline is reached first. -/
def lazyLinesUntil (isStop : List Char → Bool) :
    Nat → List Char → Option (List Char)
  | 0, _ => none
  | fuel + 1, l =>
    if isStop l then some []
    else
      let line := l.takeWhile fun c => c ≠ '\n'
      match l.drop line.length with
      | '\n' :: rest =>
        (lazyLinesUntil isStop fuel rest).map fun cap => line ++ '\n' :: cap
      | _ => none

/-- Anchored matcher for `<intro>\s*\n((?:.*\n)*?)\s*<stopLit>` (the shape
of the `def install`, `test do` and `bottle do` block regexes). -/
def matchBlockAfter (intro : List Char) (stopLit : List Char)
    (l : List Char) : Option String :=
  (chompLit intro l).bind fun l1 =>
  (chompWsToLastNl l1).bind fun l2 =>
  (lazyLinesUntil (stopAtWsLit stopLit) (l2.length + 1) l2).map String.mk

/-- Rust `str::trim` (ASCII-exact). -/
def trimStr (s : String) : String :=
  String.mk (((s.data.dropWhile isWsChar).reverse.dropWhile isWsChar).reverse)

/-- `FormulaParser::extract_install_block` (`formula.rs` lines 364-368). -/
def extract_install_block (content : String) : Option String :=
  (scanFirst (matchBlockAfter "def install".data "end".data)
    content.data).map trimStr

/-- `FormulaParser::extract_test_block` (`formula.rs` lines 370-373). -/
def extract_test_block (content : String) : Option String :=
  (scanFirst (matchBlockAfter "test do".data "end".data) content.data).map
    trimStr

/-- Anchored matcher for the heredoc caveats regex
`def caveats\s*\n\s*<<[-~]EOS\s*\n((?:.*\n)*?)\s*EOS`. -/
def matchCaveatsHeredoc (l : List Char) : Option String :=
  (chompLit "def caveats".data l).bind fun l1 =>
  (chompWsToLastNl l1).bind fun l2 =>
  (chompLit "<<".data (chompWs l2)).bind fun l3 =>
  match l3 with
  | c :: l4 =>
    if c = '-' || c = '~' then
      (chompLit "EOS".data l4).bind fun l5 =>
      (chompWsToLastNl l5).bind fun l6 =>
      (lazyLinesUntil (stopAtWsLit "EOS".data) (l6.length + 1) l6).map
        String.mk
    else none
  | [] => none

/-- Anchored matcher for the string caveats regex
`def caveats\s*\n?\s*"([^"]*)"` (its whitespace part is just `\s*`). -/
def matchCaveatsString (l : List Char) : Option String :=
  (chompLit "def caveats".data l).bind fun l1 =>
  (chompLit ['"'] (chompWs l1)).bind fun l2 =>
  let cap := l2.takeWhile fun c => c ≠ '"'
  (chompLit ['"'] (l2.drop cap.length)).map fun _ => String.mk cap

/-- `FormulaParser::extract_caveats` (`formula.rs` lines 375-393). -/
def extract_caveats (content : String) : Option String :=
  match scanFirst matchCaveatsHeredoc content.data with
  | some s => some (trimStr s)
  | none => scanFirst matchCaveatsString content.data

/-- The `(?:\s+cellar:\s*:\w+,)?` option of the bottle sha regex. -/
def tryCellar (l : List Char) : Option (List Char) :=
  (chompWs1 l).bind fun l1 =>
  (chompLit "cellar:".data l1).bind fun l2 =>
  (chompLit [':'] (chompWs l2)).bind fun l3 =>
  (chompSome isWordChar l3).bind fun x =>
  chompLit [','] x.2

/-- Anchored matcher for
`sha256(?:\s+cellar:\s*:\w+,)?\s+(\w+):\s*"([a-fA-F0-9]{64})"`
(`formula.rs` line 407), returning (platform key, hex) and the rest. -/
def matchBottleSha (l : List Char) :
    Option ((String × String) × List Char) :=
  (chompLit "sha256".data l).bind fun l1 =>
  let l2 := match tryCellar l1 with
    | some r => r
    | none => l1
  (chompWs1 l2).bind fun l3 =>
  (chompSome isWordChar l3).bind fun pl =>
  (chompLit [':'] pl.2).bind fun l4 =>
  (chompLit ['"'] (chompWs l4)).bind fun l5 =>
  (chompExact isHexChar 64 l5).bind fun hx =>
  (chompLit ['"'] hx.2).map fun rest => ((String.mk pl.1, String.mk hx.1), rest)

/-- The platform→(platform, arch) table of `extract_bottles`
(`formula.rs` lines 415-421); `none` means the entry is skipped. -/
def platformArchOf : String → Option (String × String)
  | "arm64_sequoia" | "arm64_sonoma" | "arm64_ventura" | "arm64_monterey" =>
    some ("darwin", "aarch64")
  | "sequoia" | "sonoma" | "ventura" | "monterey" | "big_sur" =>
    some ("darwin", "x86_64")
  | "x86_64_linux" => some ("linux", "x86_64")
  | "aarch64_linux" => some ("linux", "aarch64")
  | _ => none

/-- `FormulaParser::extract_bottles` (`formula.rs` lines 395-468).  The
`os_name`/`_bottle_filename` computation is dead code and dropped; the
version argument is likewise only used by that dead code. -/
def extract_bottles (content : String) (formula_name : String)
    (_version : String) : List BinaryPackage :=
  match scanFirst (matchBlockAfter "bottle do".data "end".data)
      content.data with
  | none => []
  | some block =>
    let caps := scanIter matchBottleSha (block.data.length + 1) block.data
    caps.foldl
      (fun acc c =>
        match platformArchOf c.1 with
        | none => acc
        | some pa =>
          acc ++ [⟨pa.1, pa.2,
            "https://ghcr.io/v2/homebrew/core/" ++
              replaceCharStr '@' "/" formula_name ++
              "/blobs/sha256:" ++ c.2, c.2⟩])
      []

/-- Rust `str::ends_with`. -/
def endsWithStr (suffix s : String) : Bool := suffix.data.isSuffixOf s.data

/-- `FormulaParser::parse_content` (`formula.rs` lines 152-208). -/
def parse_content (content : String) : Except NitroError Formula :=
  match extract_class_name content with
  | .error e => .error e
  | .ok name =>
    let url := (extract_url content).toOption
    let sha256 := (extract_sha256 content).toOption
    let version :=
      match url with
      | some u => extract_version_from_url u
      | none => (extract_version_from_content content).getD "unknown"
    let dp := extract_dependencies content
    .ok {
      name := name
      version := version
      description := extract_desc content
      homepage := extract_homepage content
      license := none
      sources :=
        match url with
        | some u =>
          if endsWithStr ".git" u then [⟨u, "", none⟩]
          else
            match sha256 with
            | some s => [⟨u, s, none⟩]
            | none => []
        | none => []
      dependencies := dp.1
      build_dependencies := dp.2
      optional_dependencies := []
      conflicts := []
      install_script := extract_install_block content
      test_script := extract_test_block content
      caveats := extract_caveats content
      binary_packages := extract_bottles content name version }

/-! ## Installer (`src/core/installer.rs`)

The installer's effectful steps (network downloads, hashing the downloaded
file, archive extraction, filesystem moves, symlinking, `git clone`,
running build commands) are abstracted as explicit outcome parameters; the
control flow that composes them is translated directly. -/

/-- The host identification of `get_platform` / `get_arch`
(`installer.rs` lines 487-505); both are compile-time constants of the
build, modelled as parameters. -/
structure HostEnv where
  platform : String
  arch : String
deriving DecidableEq

/-- Outcomes of the installer's effectful steps. -/
structure InstallerFx where
  /-- `Downloader::download_file` / `download_bottle` outcome, per URL. -/
  downloadRes : String → Except NitroError Unit
  /-- Hex digest computed by `verify_checksum` for the file fetched from a
  URL. -/
  hashOf : String → String
  /-- `extract_tarball` outcome (also covers the copy-only branch for
  `.pem`/`.txt`/`.patch` files and `find_extracted_dir`), per URL. -/
  extractRes : String → Except NitroError Unit
  /-- Locating and renaming the extracted bottle subtree into the cellar
  (`installer.rs` lines 109-175). -/
  placeRes : Except NitroError Unit
  /-- `git clone` outcome for a VCS source URL. -/
  cloneRes : String → Except NitroError Unit
  /-- `run_install_script` / `run_default_install` outcome. -/
  buildRes : Except NitroError Unit
  /-- `create_symlinks` outcome. -/
  linkRes : Except NitroError Unit

/-- `Installer::install_binary` (`installer.rs` lines 73-181): select the
bottle matching the host, download, verify the checksum, extract, move
into the cellar, link. -/
def install_binary (host : HostEnv) (fx : InstallerFx) (f : Formula) :
    Except NitroError Unit :=
  match f.binary_packages.find? fun p =>
      p.platform == host.platform && p.arch == host.arch with
  | none =>
    .error (.Other ("No binary package available for " ++ host.platform ++
      "/" ++ host.arch))
  | some pkg =>
    match fx.downloadRes pkg.url with
    | .error e => .error e
    | .ok _ =>
      if fx.hashOf pkg.url ≠ pkg.sha256 then
        .error (.Other ("Checksum mismatch: expected " ++ pkg.sha256 ++
          ", got " ++ fx.hashOf pkg.url))
      else
        match fx.extractRes pkg.url with
        | .error e => .error e
        | .ok _ =>
          match fx.placeRes with
          | .error e => .error e
          | .ok _ => fx.linkRes

/-- `Installer::install_from_source` (`installer.rs` lines 183-255): fail
without a source; clone for a `.git` URL (no checksum); otherwise
download, verify the checksum only when it is non-empty, extract; then
build and link. -/
def install_from_source (fx : InstallerFx) (f : Formula) :
    Except NitroError Unit :=
  match f.sources.head? with
  | none => .error (.Other "No source URL found")
  | some source =>
    if endsWithStr ".git" source.url then
      match fx.cloneRes source.url with
      | .error e => .error e
      | .ok _ =>
        match fx.buildRes with
        | .error e => .error e
        | .ok _ => fx.linkRes
    else
      match fx.downloadRes source.url with
      | .error e => .error e
      | .ok _ =>
        if source.sha256 ≠ "" ∧ fx.hashOf source.url ≠ source.sha256 then
          .error (.Other ("Checksum mismatch: expected " ++ source.sha256 ++
            ", got " ++ fx.hashOf source.url))
        else
          match fx.extractRes source.url with
          | .error e => .error e
          | .ok _ =>
            match fx.buildRes with
            | .error e => .error e
            | .ok _ => fx.linkRes

/-- `Installer::install` (`installer.rs` lines 38-52): try the binary
branch first unless building from source; any binary failure falls through
to the source branch, whose result is returned. -/
def installer_install (host : HostEnv) (fx : InstallerFx) (f : Formula)
    (build_from_source : Bool) : Except NitroError Unit :=
  if !build_from_source && !f.binary_packages.isEmpty then
    match install_binary host fx f with
    | .ok _ => .ok ()
    | .error _ => install_from_source fx f
  else
    install_from_source fx f

/-! ## Package manager and registry (`src/core/package.rs`) -/

/-- `Package` record (`package.rs` lines 8-19); `install_path` is a path
string. -/
structure Package where
  name : String
  version : String
  description : Option String
  homepage : Option String
  installed : Bool
  installed_version : Option String
  dependencies : List String
  install_path : Option String
  size : Option Nat
deriving DecidableEq

/-- The sled registry `name -> Package`, modelled as a lookup function. -/
def Registry : Type := String → Option Package

/-- `Installer::get_install_path` (`installer.rs` lines 69-71):
`cellar.join(name)`. -/
def get_install_path (cellar : String) (name : String) : String :=
  cellar ++ "/" ++ name

/-- The `Package` value written by `PackageManager::mark_installed`
(`package.rs` lines 190-205). -/
def packageOf (cellar : String) (f : Formula) : Package where
  name := f.name
  version := f.version
  description := f.description
  homepage := f.homepage
  installed := true
  installed_version := some f.version
  dependencies := f.dependencies.map Dependency.name
  install_path := some (get_install_path cellar f.name)
  size := none

/-- `PackageManager::mark_installed`: insert under the formula's name. -/
def mark_installed (cellar : String) (db : Registry) (f : Formula) :
    Registry :=
  fun n => if n = f.name then some (packageOf cellar f) else db n

/-- `PackageManager::is_installed` (`package.rs` lines 172-179). -/
def is_installed (db : Registry) (n : String) : Bool :=
  match db n with
  | some p => p.installed
  | none => false

/-- `InstallArgs` (`src/cli/commands/install.rs`). -/
structure InstallArgs where
  packages : List String
  force : Bool
  build_from_source : Bool
  only_deps : Bool
  skip_deps : Bool
  version : Option String
  debug : Bool
deriving DecidableEq

/-- The dependency-installation loop of `PackageManager::install`
(`package.rs` lines 66-72): install each not-yet-installed dependency and
mark it; an installer error aborts with the registry as written so far.
`instRes` abstracts `Installer::install` for this run. -/
def pm_install_deps (cellar : String)
    (instRes : Formula → Except NitroError Unit) :
    List Formula → Registry → Registry × Option NitroError
  | [], db => (db, none)
  | f :: rest, db =>
    if is_installed db f.name then pm_install_deps cellar instRes rest db
    else
      match instRes f with
      | .error e => (db, some e)
      | .ok _ =>
        pm_install_deps cellar instRes rest (mark_installed cellar db f)

/-- `PackageManager::install` (`package.rs` lines 49-85), starting after
formula resolution: the already-installed check, dependency resolution
(`depsRes` abstracts the resolver call; it is skipped under `skip_deps`),
the dependency loop, then the package itself unless `only_deps`.  Returns
the final registry and the error, if any. -/
def pm_install (cellar : String) (db : Registry) (args : InstallArgs)
    (formula : Formula) (depsRes : Except NitroError (List Formula))
    (instRes : Formula → Except NitroError Unit) :
    Registry × Option NitroError :=
  if !args.force && is_installed db formula.name then
    (db, some (.Other (formula.name ++ " is already installed")))
  else
    match (if args.skip_deps then Except.ok [] else depsRes) with
    | .error e => (db, some e)
    | .ok deps =>
      match pm_install_deps cellar instRes deps db with
      | (db1, some e) => (db1, some e)
      | (db1, none) =>
        if !args.only_deps then
          match instRes formula with
          | .error e => (db1, some e)
          | .ok _ => (mark_installed cellar db1 formula, none)
        else
          (db1, none)

/-! ## Statement helpers -/

/-- The name field of a successful parse (statement helper). -/
def parsedName (content : String) : Option String :=
  match parse_content content with
  | .ok f => some f.name
  | .error _ => none

/-- The version field of a successful parse (statement helper). -/
def parsedVersion (content : String) : Option String :=
  match parse_content content with
  | .ok f => some f.version
  | .error _ => none

/-- The sources field of a successful parse (statement helper). -/
def parsedSources (content : String) : Option (List Source) :=
  match parse_content content with
  | .ok f => some f.sources
  | .error _ => none

/-! ## Proof-side notions for the resolver

These definitions name quantities of the embedded `topological_sort` run
for use in its correctness statements; they are not part of the embedded
code itself. -/

/-- The number of recorded edges into `n` whose source has not yet been
popped (popped names collected in `P`).  This is the value the `in_degree`
map holds during Kahn's algorithm. -/
def remDeg (fs : List Formula) (P : List String) (n : String) : Nat :=
  (edgesOf fs).countP fun e => e.2 == n && !(P.contains e.1)

/-- Invariant of the Kahn loop state: `sorted` are the already-popped
formulae, `queue` the pending degree-0 names, `deg` the current degree
map. -/
structure KahnInv (fs : List Formula) (queue : List String)
    (deg : String → Nat) (sorted : List Formula) : Prop where
  hpn : (sorted.map Formula.name).Nodup
  hqn : queue.Nodup
  hdisj : ∀ n ∈ queue, n ∉ sorted.map Formula.name
  hpk : ∀ n ∈ sorted.map Formula.name, n ∈ namesOf fs
  hqk : ∀ n ∈ queue, n ∈ namesOf fs
  hdeg : ∀ n, deg n = remDeg fs (sorted.map Formula.name) n
  hzero : ∀ n ∈ namesOf fs,
    (deg n = 0 ↔ n ∈ sorted.map Formula.name ∨ n ∈ queue)
  hmap : ∀ f ∈ sorted, fmapOf fs f.name = some f
  hord : ∀ (j : Nat) (b : String), (sorted.map Formula.name)[j]? = some b →
    ∀ a, (a, b) ∈ edgesOf fs →
      ∃ i : Nat, i < j ∧ (sorted.map Formula.name)[i]? = some a
  hqcl : ∀ b ∈ queue, ∀ a, (a, b) ∈ edgesOf fs →
    a ∈ sorted.map Formula.name

/-- Properties of the list produced by the Kahn loop: distinct names drawn
from the key set, entries taken from the formula map, and every recorded
edge into a popped node comes from an earlier popped node. -/
structure KahnOut (fs : List Formula) (out : List Formula) : Prop where
  hpn : (out.map Formula.name).Nodup
  hpk : ∀ n ∈ out.map Formula.name, n ∈ namesOf fs
  hmap : ∀ f ∈ out, fmapOf fs f.name = some f
  hord : ∀ (j : Nat) (b : String), (out.map Formula.name)[j]? = some b →
    ∀ a, (a, b) ∈ edgesOf fs →
      ∃ i : Nat, i < j ∧ (out.map Formula.name)[i]? = some a


/-! ## General lemmas -/

/-- Strings append by concatenating their character lists. -/
theorem stringMk_append (a b : List Char) :
    String.mk a ++ String.mk b = String.mk (a ++ b) := rfl

/-- The match found by the scanner is the leftmost one: the anchored
pattern matches at the reported offset and at no earlier offset. -/
theorem scanFirst_leftmost {α : Type} (m : List Char → Option α) :
    ∀ (l : List Char) (a : α), scanFirst m l = some a →
    ∃ i, m (l.drop i) = some a ∧ ∀ j < i, m (l.drop j) = none
  | [], a, h => ⟨0, h, fun j hj => absurd hj (Nat.not_lt_zero j)⟩
  | c :: t, a, h => by
    unfold scanFirst at h
    cases hm : m (c :: t) with
    | some a' =>
      rw [hm] at h
      exact ⟨0, by simpa using hm.trans h, fun j hj => absurd hj (Nat.not_lt_zero j)⟩
    | none =>
      rw [hm] at h
      obtain ⟨i, hi, hmin⟩ := scanFirst_leftmost m t a h
      refine ⟨i + 1, by simpa using hi, fun j hj => ?_⟩
      cases j with
      | zero => simpa using hm
      | succ j' => simpa using hmin j' (Nat.lt_of_succ_lt_succ hj)

/-- Successful parses always carry empty conflicts and empty optional
dependencies (the parser constructs them as literals). -/
theorem parse_content_fields (content : String) (f : Formula)
    (h : parse_content content = .ok f) :
    f.conflicts = [] ∧ f.optional_dependencies = [] := by
  unfold parse_content at h
  cases hcn : extract_class_name content with
  | error e => rw [hcn] at h; exact absurd h (by simp)
  | ok name =>
    rw [hcn] at h
    simp only [Except.ok.injEq] at h
    subst h
    exact ⟨rfl, rfl⟩

/-- `check_conflicts` succeeds whenever both sides have empty conflict
lists. -/
theorem check_conflicts_of_empty (f : Formula) :
    ∀ rs : List Formula, f.conflicts = [] → (∀ r ∈ rs, r.conflicts = []) →
    check_conflicts f rs = .ok ()
  | [], _, _ => rfl
  | r :: rest, hf, hrs => by
    unfold check_conflicts
    rw [hf]
    have hr : r.conflicts = [] := hrs r (by simp)
    rw [hr]
    simpa using check_conflicts_of_empty f rest hf
      (fun x hx => hrs x (by simp [hx]))

/-- C10: For every input text accepted by `FormulaParser::parse_content`,
the returned `Formula` has empty `conflicts` and empty
`optional_dependencies`; consequently the resolver's symmetric conflict
check (`DependencyResolver::check_conflicts`) cannot raise a conflict
error between formulae produced by this parser. -/
theorem parser_output_never_conflicts :
    (∀ content f, parse_content content = .ok f →
      f.conflicts = [] ∧ f.optional_dependencies = []) ∧
    ∀ (f : Formula) (rs : List Formula), f.conflicts = [] →
      (∀ r ∈ rs, r.conflicts = []) → check_conflicts f rs = .ok () :=
  ⟨parse_content_fields, fun f rs hf hrs => check_conflicts_of_empty f rs hf hrs⟩

/-- Witness for C10 at a concrete input: a parsed formula has empty
conflict fields, and the conflict check over a list of parsed formulae
succeeds. -/
theorem parser_output_never_conflicts_witness :
    (parse_content "class Wget < Formula" =
      .ok { name := "wget", version := "unknown", description := none,
            homepage := none, license := none, sources := [],
            dependencies := [], build_dependencies := [],
            optional_dependencies := [], conflicts := [],
            install_script := none, test_script := none, caveats := none,
            binary_packages := [] }) ∧
    ({ name := "wget", version := "unknown", description := none,
       homepage := none, license := none, sources := [],
       dependencies := [], build_dependencies := [],
       optional_dependencies := [], conflicts := [],
       install_script := none, test_script := none, caveats := none,
       binary_packages := [] } : Formula).conflicts = [] ∧
    check_conflicts
      { name := "wget", version := "unknown", description := none,
        homepage := none, license := none, sources := [],
        dependencies := [], build_dependencies := [],
        optional_dependencies := [], conflicts := [],
        install_script := none, test_script := none, caveats := none,
        binary_packages := [] } [] = .ok () :=
  ⟨rfl,
   (parser_output_never_conflicts.1 "class Wget < Formula" _ rfl).1,
   parser_output_never_conflicts.2 _ []
     (parser_output_never_conflicts.1 "class Wget < Formula" _ rfl).1
     (fun r hr => absurd hr (List.not_mem_nil r))⟩

/-- Counterexample to C3: the code splits at any occurrence of the
substring "AT", without checking that at least two digits follow.  For
`class ATX < Formula` the claim predicts name `atx` but the parser
produces `@X` (empty lowercased base, suffix kept verbatim); for
`class PythonAT3 < Formula` (a single digit after `AT`) the claim
predicts `pythonat3` but the parser produces `python@3`. -/
theorem parser_class_name_cex :
    parsedName "class ATX < Formula" = some "@X" ∧
    some "@X" ≠ some "atx" ∧
    parsedName "class PythonAT3 < Formula" = some "python@3" ∧
    some "python@3" ≠ some "pythonat3" :=
  ⟨rfl, by decide, rfl, by decide⟩

/-- C3 (amended): for every formula text in which the class-header pattern
first captures the identifier `X`, the parse succeeds and the name is:
lowercase of `X` when `X` does not contain the substring "AT"; otherwise,
splitting at the first occurrence of "AT" (regardless of what follows),
the lowercased prefix, then `@`, then the unlowercased suffix with a dot
inserted after its first character when it has at least two characters. -/
theorem parser_class_name_amended (content : String) (ident : String)
    (hid : scanFirst matchClassHeader content.data = some ident) :
    ∃ f, parse_content content = .ok f ∧
      (findSubstrIdx "AT".data ident.data = none →
        f.name = String.mk (lowerChars ident.data)) ∧
      ∀ i, findSubstrIdx "AT".data ident.data = some i →
        f.name = String.mk (lowerChars (ident.data.take i)) ++ "@" ++
          String.mk (formatVersionPart (ident.data.drop (i + 2))) := by
  have hcn : extract_class_name content = .ok (class_name_to_package ident) := by
    unfold extract_class_name
    rw [hid]
  have h2 : ∃ f, parse_content content = .ok f ∧
      f.name = class_name_to_package ident := by
    unfold parse_content
    rw [hcn]
    exact ⟨_, rfl, rfl⟩
  obtain ⟨f, hf, hname⟩ := h2
  refine ⟨f, hf, ?_, ?_⟩
  · intro hnone
    rw [hname]
    unfold class_name_to_package
    rw [hnone]
  · intro i hi
    rw [hname]
    unfold class_name_to_package
    rw [hi]
    rw [stringMk_append, stringMk_append]
    simp

/-- Witness for the amended C3 at concrete inputs: `class Wget < Formula`
parses with name `wget`. -/
theorem parser_class_name_amended_witness :
    scanFirst matchClassHeader "class Wget < Formula".data = some "Wget" ∧
    ∃ f, parse_content "class Wget < Formula" = .ok f ∧
      (findSubstrIdx "AT".data "Wget".data = none →
        f.name = String.mk (lowerChars "Wget".data)) ∧
      ∀ i, findSubstrIdx "AT".data "Wget".data = some i →
        f.name = String.mk (lowerChars ("Wget".data.take i)) ++ "@" ++
          String.mk (formatVersionPart ("Wget".data.drop (i + 2))) :=
  ⟨rfl, parser_class_name_amended "class Wget < Formula" "Wget" rfl⟩

/-- Counterexample to C4: when a `url` directive is present, the parser
derives the version from the URL even though an explicit
`version "9.9"` directive exists — the claim's priority is inverted. -/
theorem parser_version_cex :
    extract_version_from_content
      "class A < Formula\nurl \"https://x/a-1.2.tar.gz\"\nversion \"9.9\"\n" =
      some "9.9" ∧
    parsedVersion
      "class A < Formula\nurl \"https://x/a-1.2.tar.gz\"\nversion \"9.9\"\n" =
      some "1.2" ∧
    some ("1.2" : String) ≠ some "9.9" :=
  ⟨rfl, rfl, by decide⟩

/-- C4 (amended): whenever a URL is extracted, the parsed version is
derived from that URL (three patterns in order, else the literal
"unknown"), ignoring any `version`/`revision` directive; only when no URL
is extracted is the version the `version` (then `revision`) directive,
else "unknown". -/
theorem parser_version_amended (content : String) (f : Formula)
    (hok : parse_content content = .ok f) :
    (∀ u, extract_url content = .ok u →
      f.version = extract_version_from_url u) ∧
    ∀ err, extract_url content = .error err →
      f.version = (extract_version_from_content content).getD "unknown" := by
  unfold parse_content at hok
  cases hcn : extract_class_name content with
  | error e => rw [hcn] at hok; exact absurd hok (by simp)
  | ok name =>
    rw [hcn] at hok
    simp only [Except.ok.injEq] at hok
    subst hok
    constructor
    · intro u hu
      show (match (extract_url content).toOption with
        | some u => extract_version_from_url u
        | none => (extract_version_from_content content).getD "unknown") = _
      rw [hu]
      rfl
    · intro err herr
      show (match (extract_url content).toOption with
        | some u => extract_version_from_url u
        | none => (extract_version_from_content content).getD "unknown") = _
      rw [herr]
      rfl


/-- Witness for the amended C4: at a concrete input with a URL, the parsed
version equals the URL-derived version. -/
theorem parser_version_amended_witness :
    ∃ f, parse_content
        "class A < Formula\nurl \"https://x/a-1.2.tar.gz\"\nversion \"9.9\"\n" =
        .ok f ∧
      f.version = extract_version_from_url "https://x/a-1.2.tar.gz" := by
  refine ⟨_, rfl, ?_⟩
  exact (parser_version_amended
    "class A < Formula\nurl \"https://x/a-1.2.tar.gz\"\nversion \"9.9\"\n"
    _ rfl).1 "https://x/a-1.2.tar.gz" rfl

/-- Counterexample to C5: a 64-hex `sha256 "…"` that occurs only inside
the `bottle do` block is used as the source checksum.  The content splits
as a prefix (class header and url, containing no sha256 at all) followed
by the bottle block; the parsed source checksum is exactly the hex from
inside that block. -/
theorem parser_sha_cex :
    ("class A < Formula\nurl \"https://x/a-1.2.tar.gz\"\nbottle do\n  sha256 \"aaaaaaaaaaaaaaaaaaaaaaaaaaaaaaaaaaaaaaaaaaaaaaaaaaaaaaaaaaaaaaaa\" => :sierra\nend\n" : String) =
      "class A < Formula\nurl \"https://x/a-1.2.tar.gz\"\n" ++
      "bottle do\n  sha256 \"aaaaaaaaaaaaaaaaaaaaaaaaaaaaaaaaaaaaaaaaaaaaaaaaaaaaaaaaaaaaaaaa\" => :sierra\nend\n" ∧
    extract_sha256 "class A < Formula\nurl \"https://x/a-1.2.tar.gz\"\n" =
      .error (.FormulaParse "Could not find SHA256 checksum") ∧
    scanFirst (matchBlockAfter "bottle do".data "end".data)
      "class A < Formula\nurl \"https://x/a-1.2.tar.gz\"\nbottle do\n  sha256 \"aaaaaaaaaaaaaaaaaaaaaaaaaaaaaaaaaaaaaaaaaaaaaaaaaaaaaaaaaaaaaaaa\" => :sierra\nend\n".data =
      some "  sha256 \"aaaaaaaaaaaaaaaaaaaaaaaaaaaaaaaaaaaaaaaaaaaaaaaaaaaaaaaaaaaaaaaa\" => :sierra\n" ∧
    parsedSources "class A < Formula\nurl \"https://x/a-1.2.tar.gz\"\nbottle do\n  sha256 \"aaaaaaaaaaaaaaaaaaaaaaaaaaaaaaaaaaaaaaaaaaaaaaaaaaaaaaaaaaaaaaaa\" => :sierra\nend\n" =
      some [⟨"https://x/a-1.2.tar.gz",
        "aaaaaaaaaaaaaaaaaaaaaaaaaaaaaaaaaaaaaaaaaaaaaaaaaaaaaaaaaaaaaaaa",
        none⟩] :=
  ⟨rfl, rfl, rfl, rfl⟩

/-- C5 (amended): the recorded source checksum is the result of scanning
the whole content — bottle blocks included — with the three quoted-sha256
patterns tried in order; when the URL is present and not a VCS URL, the
single source carries exactly that checksum, and for the standard
double-quoted pattern the reported checksum is the leftmost match in the
content. -/
theorem parser_sha_whole_content (content : String) (f : Formula)
    (u s : String)
    (hok : parse_content content = .ok f)
    (hurl : extract_url content = .ok u)
    (hgit : endsWithStr ".git" u = false)
    (hsha : extract_sha256 content = .ok s) :
    f.sources = [⟨u, s, none⟩] ∧
    ∀ s₁, scanFirst matchSha256Pat1 content.data = some s₁ →
      s = s₁ ∧ ∃ i, matchSha256Pat1 (content.data.drop i) = some s₁ ∧
        ∀ j < i, matchSha256Pat1 (content.data.drop j) = none := by
  have hs1 : ∀ s₁, scanFirst matchSha256Pat1 content.data = some s₁ → s = s₁ := by
    intro s₁ h1
    unfold extract_sha256 at hsha
    rw [h1] at hsha
    simpa using hsha.symm
  constructor
  · unfold parse_content at hok
    cases hcn : extract_class_name content with
    | error e => rw [hcn] at hok; exact absurd hok (by simp)
    | ok name =>
      rw [hcn] at hok
      simp only [Except.ok.injEq] at hok
      subst hok
      show (match (extract_url content).toOption with
        | some u =>
          if endsWithStr ".git" u = true then [(⟨u, "", none⟩ : Source)]
          else
            match (extract_sha256 content).toOption with
            | some s => [(⟨u, s, none⟩ : Source)]
            | none => []
        | none => ([] : List Source)) = [(⟨u, s, none⟩ : Source)]
      rw [hurl, hsha]
      simp [Except.toOption, hgit]
  · intro s₁ h1
    exact ⟨hs1 s₁ h1, scanFirst_leftmost matchSha256Pat1 content.data s₁ h1⟩

/-- Witness for the amended C5 at a concrete input with a URL and a
checksum outside any bottle block. -/
theorem parser_sha_whole_content_witness :
    ∃ f, parse_content
        "class A < Formula\nurl \"https://x/a-1.2.tar.gz\"\nsha256 \"bbbbbbbbbbbbbbbbbbbbbbbbbbbbbbbbbbbbbbbbbbbbbbbbbbbbbbbbbbbbbbbb\"\n" =
        .ok f ∧
      f.sources = [⟨"https://x/a-1.2.tar.gz",
        "bbbbbbbbbbbbbbbbbbbbbbbbbbbbbbbbbbbbbbbbbbbbbbbbbbbbbbbbbbbbbbbb",
        none⟩] := by
  refine ⟨_, rfl, ?_⟩
  exact (parser_sha_whole_content
    "class A < Formula\nurl \"https://x/a-1.2.tar.gz\"\nsha256 \"bbbbbbbbbbbbbbbbbbbbbbbbbbbbbbbbbbbbbbbbbbbbbbbbbbbbbbbbbbbbbbbb\"\n"
    _ "https://x/a-1.2.tar.gz"
    "bbbbbbbbbbbbbbbbbbbbbbbbbbbbbbbbbbbbbbbbbbbbbbbbbbbbbbbbbbbbbbbb"
    rfl rfl rfl rfl).1

/-- C6: with `build_from_source = false` and non-empty `binary_packages`,
any failure of the binary branch (bottle selection, download, checksum
mismatch, extraction, placement, linking) makes `Installer::install` run
the source pipeline and return its result; the install errors only if the
source branch also errors. -/
theorem installer_binary_failure_falls_back (host : HostEnv)
    (fx : InstallerFx) (f : Formula) (hbp : f.binary_packages ≠ []) :
    (∀ e, install_binary host fx f = .error e →
      installer_install host fx f false = install_from_source fx f) ∧
    ∀ e, installer_install host fx f false = .error e →
      install_from_source fx f = .error e := by
  have hcond : (!false && !f.binary_packages.isEmpty) = true := by
    simp [List.isEmpty_iff, hbp]
  constructor
  · intro e he
    unfold installer_install
    rw [hcond, if_pos rfl, he]
  · intro e he
    unfold installer_install at he
    rw [hcond, if_pos rfl] at he
    cases hb : install_binary host fx f with
    | ok _ => rw [hb] at he; exact absurd he (by simp)
    | error e' => rw [hb] at he; exact he

/-- Witness for C6: a host with no matching bottle makes the binary branch
fail, and the install result is the source branch's result. -/
theorem installer_binary_failure_falls_back_witness :
    (install_binary ⟨"linux", "x86_64"⟩
      ⟨fun _ => .ok (), fun _ => "", fun _ => .ok (), .ok (), fun _ => .ok (),
       .ok (), .ok ()⟩
      { name := "m", version := "1", description := none, homepage := none,
        license := none, sources := [], dependencies := [],
        build_dependencies := [], optional_dependencies := [],
        conflicts := [], install_script := none, test_script := none,
        caveats := none,
        binary_packages := [⟨"darwin", "aarch64", "u", "s"⟩] } =
      .error (.Other "No binary package available for linux/x86_64")) ∧
    installer_install ⟨"linux", "x86_64"⟩
      ⟨fun _ => .ok (), fun _ => "", fun _ => .ok (), .ok (), fun _ => .ok (),
       .ok (), .ok ()⟩
      { name := "m", version := "1", description := none, homepage := none,
        license := none, sources := [], dependencies := [],
        build_dependencies := [], optional_dependencies := [],
        conflicts := [], install_script := none, test_script := none,
        caveats := none,
        binary_packages := [⟨"darwin", "aarch64", "u", "s"⟩] } false =
      install_from_source
        ⟨fun _ => .ok (), fun _ => "", fun _ => .ok (), .ok (), fun _ => .ok (),
         .ok (), .ok ()⟩
        { name := "m", version := "1", description := none, homepage := none,
          license := none, sources := [], dependencies := [],
          build_dependencies := [], optional_dependencies := [],
          conflicts := [], install_script := none, test_script := none,
          caveats := none,
          binary_packages := [⟨"darwin", "aarch64", "u", "s"⟩] } :=
  ⟨rfl,
   (installer_binary_failure_falls_back ⟨"linux", "x86_64"⟩
      ⟨fun _ => .ok (), fun _ => "", fun _ => .ok (), .ok (), fun _ => .ok (),
       .ok (), .ok ()⟩
      { name := "m", version := "1", description := none, homepage := none,
        license := none, sources := [], dependencies := [],
        build_dependencies := [], optional_dependencies := [],
        conflicts := [], install_script := none, test_script := none,
        caveats := none,
        binary_packages := [⟨"darwin", "aarch64", "u", "s"⟩] }
      (by decide)).1
     (.Other "No binary package available for linux/x86_64") rfl⟩


/-- The dependency loop writes the registry only under a formula's name,
and only after that formula's installer call succeeded. -/
theorem pm_install_deps_writes (cellar : String)
    (instRes : Formula → Except NitroError Unit) :
    ∀ (deps : List Formula) (db : Registry) (name : String),
    (pm_install_deps cellar instRes deps db).1 name ≠ db name →
    ∃ f ∈ deps, f.name = name ∧ instRes f = .ok ()
  | [], db, name, hch => absurd rfl hch
  | f :: rest, db, name, hch => by
    unfold pm_install_deps at hch
    by_cases hin : is_installed db f.name
    · rw [if_pos hin] at hch
      obtain ⟨g, hg, hgn, hgo⟩ :=
        pm_install_deps_writes cellar instRes rest db name hch
      exact ⟨g, by simp [hg], hgn, hgo⟩
    · rw [if_neg hin] at hch
      cases hi : instRes f with
      | error e => rw [hi] at hch; exact absurd rfl hch
      | ok _ =>
        rw [hi] at hch
        by_cases hstep :
            (pm_install_deps cellar instRes rest
              (mark_installed cellar db f)).1 name =
            mark_installed cellar db f name
        · rw [hstep] at hch
          have hname : name = f.name := by
            by_contra hne
            exact hch (by simp [mark_installed, hne])
          exact ⟨f, by simp, hname.symm, hi⟩
        · obtain ⟨g, hg, hgn, hgo⟩ :=
            pm_install_deps_writes cellar instRes rest
              (mark_installed cellar db f) name hstep
          exact ⟨g, by simp [hg], hgn, hgo⟩

/-- C7: the registry entry for a name changes during
`PackageManager::install` only when some formula with that name (a
dependency or the package itself) had a successful installer run; in
particular, if every install attempt for that package fails, the registry
state for that key is unchanged (a failed install leaves no new entry). -/
theorem registry_written_only_on_success (cellar : String) (db : Registry)
    (args : InstallArgs) (formula : Formula)
    (depsRes : Except NitroError (List Formula))
    (instRes : Formula → Except NitroError Unit) (name : String)
    (hch : (pm_install cellar db args formula depsRes instRes).1 name ≠
      db name) :
    ∃ f : Formula, f.name = name ∧ instRes f = .ok () := by
  unfold pm_install at hch
  split at hch
  · exact absurd rfl hch
  · split at hch
    · exact absurd rfl hch
    · rename_i deps hd
      have hdb1 : ∀ db1 : Registry,
          pm_install_deps cellar instRes deps db = (db1, none) ∨
          (∃ e, pm_install_deps cellar instRes deps db = (db1, some e)) →
          db1 name ≠ db name →
          ∃ f, f.name = name ∧ instRes f = .ok () := by
        intro db1 hp h1
        have : (pm_install_deps cellar instRes deps db).1 name ≠ db name := by
          rcases hp with h | ⟨e, h⟩ <;> rw [h] <;> exact h1
        obtain ⟨g, _, hgn, hgo⟩ :=
          pm_install_deps_writes cellar instRes deps db name this
        exact ⟨g, hgn, hgo⟩
      split at hch
      · rename_i db1 e hp
        exact hdb1 db1 (Or.inr ⟨e, hp⟩) hch
      · rename_i db1 hp
        split at hch
        · split at hch
          · rename_i e hi
            exact hdb1 db1 (Or.inl hp) hch
          · rename_i hi
            by_cases hname : name = formula.name
            · exact ⟨formula, hname.symm, hi⟩
            · exact hdb1 db1 (Or.inl hp)
                (fun h => hch (by simp [mark_installed, hname, h]))
        · exact hdb1 db1 (Or.inl hp) hch

/-- Witness for C7: a concrete run over an empty registry in which the
package installs successfully and a registry entry appears. -/
theorem registry_written_only_on_success_witness :
    ((pm_install "Cellar" (fun _ => none)
        ⟨["w"], false, false, false, false, none, false⟩
        { name := "w", version := "1", description := none, homepage := none,
          license := none, sources := [], dependencies := [],
          build_dependencies := [], optional_dependencies := [],
          conflicts := [], install_script := none, test_script := none,
          caveats := none, binary_packages := [] }
        (.ok [])
        (fun _ => (.ok () : Except NitroError Unit))).1 "w" ≠
      (fun _ => (none : Option Package)) "w") ∧
    ∃ f : Formula, f.name = "w" ∧
      (fun _ : Formula => (.ok () : Except NitroError Unit)) f = .ok () :=
  ⟨by decide,
   registry_written_only_on_success "Cellar" (fun _ => none)
     ⟨["w"], false, false, false, false, none, false⟩
     { name := "w", version := "1", description := none, homepage := none,
       license := none, sources := [], dependencies := [],
       build_dependencies := [], optional_dependencies := [],
       conflicts := [], install_script := none, test_script := none,
       caveats := none, binary_packages := [] }
     (.ok []) (fun _ => (.ok () : Except NitroError Unit)) "w" (by decide)⟩

/-- Splitting a Boolean count along a second predicate. -/
theorem countP_split {α : Type} (l : List α) (p q : α → Bool) :
    l.countP p =
      l.countP (fun a => p a && q a) + l.countP (fun a => p a && !q a) := by
  induction l with
  | nil => rfl
  | cons x t ih =>
    simp only [List.countP_cons, ih]
    cases hp : p x <;> cases hq : q x <;> simp [hp, hq] <;> omega

/-- Both endpoints of a recorded edge are keys of the graph. -/
theorem edges_mem_names {fs : List Formula} {a b : String}
    (h : (a, b) ∈ edgesOf fs) : a ∈ namesOf fs ∧ b ∈ namesOf fs := by
  unfold edgesOf at h
  obtain ⟨f, hf, hm⟩ := List.mem_flatMap.1 h
  obtain ⟨d, hd, he⟩ := List.mem_map.1 hm
  obtain ⟨hd1, hd2⟩ := List.mem_filter.1 hd
  obtain ⟨rfl, rfl⟩ : d.name = a ∧ f.name = b := by
    simpa [Prod.ext_iff] using he
  refine ⟨?_, List.mem_map.2 ⟨f, hf, rfl⟩⟩
  simpa [List.elem_eq_mem] using hd2

/-- A runtime dependency whose name is a key yields a recorded edge. -/
theorem mem_edges_of_dep {fs : List Formula} {f : Formula} {d : Dependency}
    (hf : f ∈ fs) (hd : d ∈ f.dependencies) (hn : d.name ∈ namesOf fs) :
    (d.name, f.name) ∈ edgesOf fs := by
  unfold edgesOf
  refine List.mem_flatMap.2 ⟨f, hf, List.mem_map.2 ⟨d, List.mem_filter.2
    ⟨hd, ?_⟩, rfl⟩⟩
  simpa [List.elem_eq_mem] using hn

/-- A formula-map hit is named after its key and comes from the input. -/
theorem fmapOf_spec {fs : List Formula} {n : String} {f : Formula}
    (h : fmapOf fs n = some f) : f.name = n ∧ f ∈ fs := by
  unfold fmapOf at h
  have hm : f ∈ fs.filter fun g => g.name == n :=
    List.mem_of_mem_getLast? h
  obtain ⟨h1, h2⟩ := List.mem_filter.1 hm
  exact ⟨by simpa using h2, h1⟩

/-- Every key has a formula-map entry. -/
theorem fmapOf_total {fs : List Formula} {n : String}
    (h : n ∈ namesOf fs) : ∃ f, fmapOf fs n = some f := by
  obtain ⟨f, hf, rfl⟩ := List.mem_map.1 h
  have hmem : f ∈ fs.filter fun g => g.name == f.name :=
    List.mem_filter.2 ⟨hf, by simp⟩
  unfold fmapOf
  cases hl : (fs.filter fun g => g.name == f.name).getLast? with
  | some g => exact ⟨g, rfl⟩
  | none =>
    rw [List.getLast?_eq_none_iff] at hl
    rw [hl] at hmem
    exact absurd hmem (List.not_mem_nil f)

/-- Adjacency membership is edge membership. -/
theorem mem_adj_iff {fs : List Formula} {q b : String} :
    b ∈ adjOf fs q ↔ (q, b) ∈ edgesOf fs := by
  unfold adjOf
  rw [List.mem_filterMap]
  constructor
  · rintro ⟨e, he, hsome⟩
    by_cases h1 : e.1 = q
    · have h2 : e.2 = b := by
        rw [if_pos (by simpa using h1)] at hsome
        simpa using hsome
      have : e = (q, b) := Prod.ext h1 h2
      rwa [this] at he
    · rw [if_neg (by simpa using h1)] at hsome
      exact absurd hsome (by simp)
  · intro h
    exact ⟨(q, b), h, by simp⟩

/-- The multiplicity of `b` in the adjacency vector of `q` is the number
of recorded edges from `q` to `b`. -/
theorem count_adj (fs : List Formula) (q b : String) :
    (adjOf fs q).count b =
      (edgesOf fs).countP fun e => e.1 == q && e.2 == b := by
  unfold adjOf
  generalize edgesOf fs = l
  induction l with
  | nil => rfl
  | cons e t ih =>
    by_cases h1 : e.1 = q
    · rw [List.filterMap_cons]
      rw [if_pos (by simpa using h1)]
      simp only [List.count_cons, List.countP_cons, ih, h1]
      by_cases h2 : e.2 = b <;> simp [h2]
    · rw [List.filterMap_cons]
      rw [if_neg (by simpa using h1)]
      simp only [List.countP_cons, ih]
      simp [h1]

/-- Before anything is popped, the remaining degree is the full count of
edges into `n`. -/
theorem remDeg_nil (fs : List Formula) (n : String) :
    remDeg fs [] n = (edgesOf fs).countP fun e => e.2 == n := by
  unfold remDeg
  exact List.countP_congr (by intro e _; simp)

/-- For machine-realistic edge counts the `usize` degree counter equals
the remaining-degree count for the empty popped set. -/
theorem initDeg_eq_remDeg {fs : List Formula}
    (hE : (edgesOf fs).length < USIZE) (n : String) :
    initDegOf fs n = remDeg fs [] n := by
  unfold initDegOf
  rw [remDeg_nil]
  exact Nat.mod_eq_of_lt (lt_of_le_of_lt (List.countP_le_length _) hE)

/-- Remaining degrees are bounded by the edge count. -/
theorem remDeg_le_edges (fs : List Formula) (P : List String) (n : String) :
    remDeg fs P n ≤ (edgesOf fs).length :=
  List.countP_le_length _

/-- Popping a fresh name `q` lowers each remaining degree by the
multiplicity of the edges from `q`, which never exceeds it. -/
theorem remDeg_concat (fs : List Formula) (P : List String) (q n : String)
    (hq : q ∉ P) :
    (edgesOf fs).countP (fun e => e.1 == q && e.2 == n) ≤ remDeg fs P n ∧
    remDeg fs (P ++ [q]) n =
      remDeg fs P n -
        (edgesOf fs).countP fun e => e.1 == q && e.2 == n := by
  have hsplit := countP_split (edgesOf fs)
    (fun e => e.2 == n && !(P.contains e.1)) (fun e => e.1 == q)
  have h1 : (edgesOf fs).countP
      (fun e => (e.2 == n && !(P.contains e.1)) && e.1 == q) =
      (edgesOf fs).countP (fun e => e.1 == q && e.2 == n) := by
    refine List.countP_congr ?_
    intro e _
    by_cases h : e.1 = q
    · simp [h, List.elem_eq_mem, hq]
    · simp [h]
  have h2 : (edgesOf fs).countP
      (fun e => (e.2 == n && !(P.contains e.1)) && !(e.1 == q)) =
      remDeg fs (P ++ [q]) n := by
    refine List.countP_congr ?_
    intro e _
    by_cases hm : e.1 ∈ P <;> by_cases he : e.1 = q <;>
      simp [List.elem_eq_mem, hm, he]
  unfold remDeg
  rw [hsplit, h1, h2]
  unfold remDeg
  omega

/-- A remaining degree is zero exactly when every recorded edge into `n`
originates from a popped name. -/
theorem remDeg_zero_iff (fs : List Formula) (P : List String) (n : String) :
    remDeg fs P n = 0 ↔ ∀ a, (a, n) ∈ edgesOf fs → a ∈ P := by
  unfold remDeg
  rw [List.countP_eq_zero]
  constructor
  · intro h a ha
    have := h (a, n) ha
    by_cases hm : a ∈ P
    · exact hm
    · simp [List.elem_eq_mem, hm] at this
  · intro h e he
    by_cases h2 : e.2 = n
    · have hmem : e.1 ∈ P := by
        have : e = (e.1, n) := Prod.ext rfl h2
        exact h e.1 (this ▸ he)
      simp [h2, List.elem_eq_mem, hmem]
    · simp [h2]

/-- Decrementing a positive `usize` below the wrap bound is plain
subtraction. -/
theorem usize_decrement {x : Nat} (h1 : 1 ≤ x) (h2 : x < USIZE) :
    (x + (USIZE - 1)) % USIZE = x - 1 := by
  have hU : 1 ≤ USIZE := Nat.one_le_two_pow
  have : x + (USIZE - 1) = (x - 1) + USIZE := by omega
  rw [this, Nat.add_mod_right]
  exact Nat.mod_eq_of_lt (by omega)


/-- Effect of the dependents-processing loop: every degree drops by the
multiplicity in the processed adjacency list, and exactly the names whose
degree is consumed to zero (from a positive value) are appended to the
queue, each once. -/
theorem processDeps_spec :
    ∀ (l : List String) (deg : String → Nat) (qu : List String),
    (∀ d, l.count d ≤ deg d) → (∀ d, deg d < USIZE) →
    (∀ d, (processDeps l deg qu).1 d = deg d - l.count d) ∧
    ∃ push, (processDeps l deg qu).2 = qu ++ push ∧ push.Nodup ∧
      ∀ d, d ∈ push ↔ (1 ≤ deg d ∧ deg d = l.count d) := by
  intro l
  induction l with
  | nil =>
    intro deg qu hle hlt
    refine ⟨fun d => by simp [processDeps], [], by simp [processDeps],
      List.nodup_nil, fun d => ?_⟩
    simp only [List.not_mem_nil, false_iff, List.count_nil]
    omega
  | cons d0 rest ih =>
    intro deg qu hle hlt
    have h1 : 1 ≤ deg d0 := by
      have := hle d0
      rw [List.count_cons_self] at this
      omega
    set degm : String → Nat :=
      fun m => if m = d0 then (deg d0 + (USIZE - 1)) % USIZE else deg m
      with hdegm
    have hm0 : degm d0 = deg d0 - 1 := by
      rw [hdegm]
      simp [usize_decrement h1 (hlt d0)]
    have hmne : ∀ d, d ≠ d0 → degm d = deg d := by
      intro d hd
      rw [hdegm]
      simp [hd]
    have hle' : ∀ d, rest.count d ≤ degm d := by
      intro d
      by_cases hd : d = d0
      · subst hd
        rw [hm0]
        have := hle d
        rw [List.count_cons_self] at this
        omega
      · rw [hmne d hd]
        have := hle d
        rw [List.count_cons_of_ne hd] at this
        exact this
    have hlt' : ∀ d, degm d < USIZE := by
      intro d
      by_cases hd : d = d0
      · subst hd
        rw [hm0]
        exact lt_of_le_of_lt (Nat.sub_le _ _) (hlt d)
      · rw [hmne d hd]
        exact hlt d
    obtain ⟨ihdeg, push', hq', hnd', hch'⟩ :=
      ih degm (if degm d0 = 0 then qu ++ [d0] else qu) hle' hlt'
    have hunf : processDeps (d0 :: rest) deg qu =
        processDeps rest degm (if degm d0 = 0 then qu ++ [d0] else qu) := rfl
    constructor
    · intro d
      rw [hunf, ihdeg d]
      by_cases hd : d = d0
      · subst hd
        rw [hm0, List.count_cons_self]
        omega
      · rw [hmne d hd, List.count_cons_of_ne hd]
    · by_cases hz : degm d0 = 0
      · have hone : deg d0 = 1 := by omega
        have hcnt0 : rest.count d0 = 0 := by
          have := hle' d0
          omega
        refine ⟨d0 :: push', ?_, ?_, ?_⟩
        · rw [hunf, hq', if_pos hz]
          simp
        · refine List.Nodup.cons (fun hmem => ?_) hnd'
          have := (hch' d0).1 hmem
          omega
        · intro d
          by_cases hd : d = d0
          · subst hd
            simp only [List.mem_cons, true_or, true_iff]
            rw [List.count_cons_self, hcnt0]
            omega
          · simp only [List.mem_cons, hd, false_or]
            rw [hch' d, hmne d hd, List.count_cons_of_ne hd]
      · refine ⟨push', ?_, hnd', ?_⟩
        · rw [hunf, hq', if_neg hz]
        · intro d
          by_cases hd : d = d0
          · rw [hd, hch' d0, hm0, List.count_cons_self]
            omega
          · rw [hch' d, hmne d hd, List.count_cons_of_ne hd]

/-- The Kahn loop preserves its invariant and therefore its output
satisfies the pop-order properties, whatever the fuel. -/
theorem kahnLoop_out (fs : List Formula)
    (hE : (edgesOf fs).length < USIZE) :
    ∀ (fuel : Nat) (queue : List String) (deg : String → Nat)
      (sorted : List Formula), KahnInv fs queue deg sorted →
    KahnOut fs (kahnLoop (adjOf fs) (fmapOf fs) fuel queue deg sorted) := by
  intro fuel
  induction fuel with
  | zero =>
    intro queue deg sorted hinv
    exact ⟨hinv.hpn, hinv.hpk, hinv.hmap, hinv.hord⟩
  | succ fuel ih =>
    intro queue deg sorted hinv
    cases queue with
    | nil => exact ⟨hinv.hpn, hinv.hpk, hinv.hmap, hinv.hord⟩
    | cons q qs =>
      have hqmem : q ∈ q :: qs := by simp
      have hqnames : q ∈ namesOf fs := hinv.hqk q hqmem
      obtain ⟨fq, hfq⟩ := fmapOf_total hqnames
      obtain ⟨hfqn, hfqmem⟩ := fmapOf_spec hfq
      have hqP : q ∉ sorted.map Formula.name := hinv.hdisj q hqmem
      have hqnodup := hinv.hqn
      have hqsnodup : qs.Nodup := (List.nodup_cons.1 hqnodup).2
      have hqnotqs : q ∉ qs := (List.nodup_cons.1 hqnodup).1
      have hP' : (sorted ++ [fq]).map Formula.name =
          sorted.map Formula.name ++ [q] := by simp [hfqn]
      have hunf : kahnLoop (adjOf fs) (fmapOf fs) (fuel + 1) (q :: qs) deg
          sorted = kahnLoop (adjOf fs) (fmapOf fs) fuel
            (processDeps (adjOf fs q) deg qs).2
            (processDeps (adjOf fs q) deg qs).1 (sorted ++ [fq]) := by
        simp only [kahnLoop]
        rw [hfq]
      have hpre : ∀ d, (adjOf fs q).count d ≤ deg d := by
        intro d
        rw [count_adj, hinv.hdeg d]
        exact (remDeg_concat fs (sorted.map Formula.name) q d hqP).1
      have hlt : ∀ d, deg d < USIZE := fun d => by
        rw [hinv.hdeg d]
        exact lt_of_le_of_lt (remDeg_le_edges fs _ d) hE
      obtain ⟨hdeg2, push, hq2, hndpush, hchar⟩ :=
        processDeps_spec (adjOf fs q) deg qs hpre hlt
      have hpushfact : ∀ d ∈ push, d ∈ namesOf fs ∧ 1 ≤ deg d ∧
          d ∉ sorted.map Formula.name ∧ d ∉ q :: qs := by
        intro d hd
        obtain ⟨hd1, hd2⟩ := (hchar d).1 hd
        have hcnt : 0 < (adjOf fs q).count d := by omega
        have hmem : d ∈ adjOf fs q := List.count_pos_iff.1 hcnt
        have hedge : (q, d) ∈ edgesOf fs := mem_adj_iff.1 hmem
        have hdn : d ∈ namesOf fs := (edges_mem_names hedge).2
        have hnot : ¬ (d ∈ sorted.map Formula.name ∨ d ∈ q :: qs) := by
          intro hcase
          have := (hinv.hzero d hdn).2 hcase
          omega
        push_neg at hnot
        exact ⟨hdn, hd1, hnot.1, hnot.2⟩
      rw [hunf]
      apply ih
      refine ⟨?_, ?_, ?_, ?_, ?_, ?_, ?_, ?_, ?_, ?_⟩
      · -- hpn
        rw [hP']
        refine hinv.hpn.append (List.nodup_singleton q) ?_
        intro a ha hb
        rw [List.mem_singleton] at hb
        subst hb
        exact hqP ha
      · -- hqn
        rw [hq2]
        refine hqsnodup.append hndpush ?_
        intro a ha hb
        exact (hpushfact a hb).2.2.2 (by simp [ha])
      · -- hdisj
        intro n hn
        rw [hq2] at hn
        rw [hP']
        rcases List.mem_append.1 hn with h | h
        · intro hc
          rcases List.mem_append.1 hc with h2 | h2
          · exact hinv.hdisj n (by simp [h]) h2
          · rw [List.mem_singleton] at h2
            exact hqnotqs (h2 ▸ h)
        · intro hc
          rcases List.mem_append.1 hc with h2 | h2
          · exact (hpushfact n h).2.2.1 h2
          · rw [List.mem_singleton] at h2
            exact (hpushfact n h).2.2.2 (by simp [h2])
      · -- hpk
        intro n hn
        rw [hP'] at hn
        rcases List.mem_append.1 hn with h | h
        · exact hinv.hpk n h
        · rw [List.mem_singleton] at h
          exact h ▸ hqnames
      · -- hqk
        intro n hn
        rw [hq2] at hn
        rcases List.mem_append.1 hn with h | h
        · exact hinv.hqk n (by simp [h])
        · exact (hpushfact n h).1
      · -- hdeg
        intro n
        rw [hP', hdeg2 n, count_adj, hinv.hdeg n,
          (remDeg_concat fs (sorted.map Formula.name) q n hqP).2]
      · -- hzero
        intro n hn
        rw [hP', hq2, hdeg2 n]
        constructor
        · intro h0
          by_cases hdn : deg n = 0
          · rcases (hinv.hzero n hn).1 hdn with h | h
            · exact Or.inl (List.mem_append.2 (Or.inl h))
            · rcases List.mem_cons.1 h with h2 | h2
              · exact Or.inl (List.mem_append.2 (Or.inr (by simp [h2])))
              · exact Or.inr (List.mem_append.2 (Or.inl h2))
          · have hcnt := hpre n
            have : deg n = (adjOf fs q).count n := by omega
            exact Or.inr (List.mem_append.2 (Or.inr ((hchar n).2
              ⟨by omega, this⟩)))
        · intro hc
          rcases hc with h | h
          · rcases List.mem_append.1 h with h2 | h2
            · have : deg n = 0 := (hinv.hzero n hn).2 (Or.inl h2)
              omega
            · rw [List.mem_singleton] at h2
              have : deg n = 0 :=
                (hinv.hzero n hn).2 (Or.inr (by simp [h2]))
              omega
          · rcases List.mem_append.1 h with h2 | h2
            · have : deg n = 0 :=
                (hinv.hzero n hn).2 (Or.inr (by simp [h2]))
              omega
            · obtain ⟨_, he⟩ := (hchar n).1 h2
              omega
      · -- hmap
        intro f hf
        rcases List.mem_append.1 hf with h | h
        · exact hinv.hmap f h
        · rw [List.mem_singleton] at h
          subst h
          rw [hfqn]
          exact hfq
      · -- hord
        intro j b hjb a hab
        rw [hP'] at hjb ⊢
        rw [List.getElem?_append] at hjb
        by_cases hj : j < (sorted.map Formula.name).length
        · rw [if_pos hj] at hjb
          obtain ⟨i, hi, hia⟩ := hinv.hord j b hjb a hab
          refine ⟨i, hi, ?_⟩
          rw [List.getElem?_append, if_pos (lt_trans hi hj)]
          exact hia
        · rw [if_neg hj] at hjb
          have hb : b = q := by
            by_cases hj2 : j = (sorted.map Formula.name).length
            · rw [hj2, Nat.sub_self] at hjb
              have := hjb
              simp at this
              exact this.symm
            · obtain ⟨k, hk⟩ : ∃ k,
                  j - (sorted.map Formula.name).length = k + 1 :=
                ⟨j - (sorted.map Formula.name).length - 1, by omega⟩
              rw [hk] at hjb
              simp at hjb
          subst hb
          have haP : a ∈ sorted.map Formula.name := hinv.hqcl b hqmem a hab
          obtain ⟨i, hia⟩ := List.mem_iff_getElem?.1 haP
          have hilen : i < (sorted.map Formula.name).length :=
            (List.getElem?_eq_some.1 hia).1
          refine ⟨i, by omega, ?_⟩
          rw [List.getElem?_append, if_pos hilen]
          exact hia
      · -- hqcl
        intro b hb a hab
        rw [hq2] at hb
        rw [hP']
        rcases List.mem_append.1 hb with h | h
        · exact List.mem_append.2 (Or.inl (hinv.hqcl b (by simp [h]) a hab))
        · obtain ⟨hb1, hb2⟩ := (hchar b).1 h
          have hz : remDeg fs (sorted.map Formula.name) b -
              (edgesOf fs).countP (fun e => e.1 == q && e.2 == b) = 0 := by
            rw [← count_adj, ← hinv.hdeg b]
            omega
          have hrem : remDeg fs (sorted.map Formula.name ++ [q]) b = 0 := by
            rw [(remDeg_concat fs (sorted.map Formula.name) q b hqP).2]
            exact hz
          exact (remDeg_zero_iff fs _ b).1 hrem a hab

/-- The initial state of Kahn's algorithm (degree map fresh from the edge
loop, queue seeded with the degree-0 keys in hash-map iteration order,
nothing popped) satisfies the loop invariant. -/
theorem kahn_initial (fs : List Formula) (order : List String)
    (hE : (edgesOf fs).length < USIZE) (hord : orderGood order fs) :
    KahnInv fs (order.filter fun n => initDegOf fs n == 0) (initDegOf fs)
      [] := by
  obtain ⟨hnd, hcov1, hcov2⟩ := hord
  refine ⟨by simp, hnd.filter _, by simp, by simp, ?_, ?_, ?_, by simp,
    ?_, ?_⟩
  · intro n hn
    exact hcov2 n (List.mem_of_mem_filter hn)
  · intro n
    simpa using initDeg_eq_remDeg hE n
  · intro n hn
    simp only [List.map_nil, List.not_mem_nil, false_or]
    constructor
    · intro h0
      exact List.mem_filter.2 ⟨hcov1 n hn, by simp [h0]⟩
    · intro hmem
      have := (List.mem_filter.1 hmem).2
      simpa using this
  · intro j b hjb
    simp at hjb
  · intro b hb a hab
    have hdeg0 : initDegOf fs b = 0 := by
      have := (List.mem_filter.1 hb).2
      simpa using this
    have : remDeg fs [] b = 0 := by
      rw [← initDeg_eq_remDeg hE]
      exact hdeg0
    simpa using (remDeg_zero_iff fs [] b).1 this a hab

/-- Every element of a cycle has a cycle element with a recorded edge into
it (its cyclic predecessor). -/
theorem cycle_pred {fs : List Formula} {c : List String}
    (hc : IsCycle fs c) : ∀ m ∈ c, ∃ a ∈ c, (a, m) ∈ edgesOf fs := by
  obtain ⟨hne, hedges⟩ := hc
  intro m hm
  obtain ⟨⟨k, hk⟩, hkm⟩ := List.mem_iff_get.1 hm
  have hlen : 0 < c.length := List.length_pos.2 hne
  obtain ⟨j, hjdef⟩ : ∃ j, j = (k + c.length - 1) % c.length := ⟨_, rfl⟩
  have hj : j < c.length := by rw [hjdef]; exact Nat.mod_lt _ hlen
  have hjr : j < (c.rotate 1).length := by rwa [List.length_rotate]
  have hjz : j < (c.zip (c.rotate 1)).length := by
    rw [List.length_zip, List.length_rotate]
    simpa using hj
  have hidx : (j + 1) % c.length = k := by
    rw [hjdef]
    calc ((k + c.length - 1) % c.length + 1) % c.length
        = (k + c.length - 1 + 1) % c.length := by rw [Nat.mod_add_mod]
      _ = (k + c.length) % c.length := by congr 1; omega
      _ = k % c.length := by rw [Nat.add_mod_right]
      _ = k := Nat.mod_eq_of_lt hk
  have hval : (c.rotate 1).get ⟨j, hjr⟩ = m := by
    rw [List.get_rotate]
    exact (congrArg c.get (Fin.ext hidx)).trans hkm
  have hpair := @List.get_zip _ _ c (c.rotate 1) ⟨j, hjz⟩
  have h2 : (c.zip (c.rotate 1)).get ⟨j, hjz⟩ = (c.get ⟨j, hj⟩, m) := by
    rw [hpair]
    exact Prod.ext rfl hval
  have hmem := hedges ((c.zip (c.rotate 1)).get ⟨j, hjz⟩)
    (List.get_mem _ _ hjz)
  rw [h2] at hmem
  exact ⟨c.get ⟨j, hj⟩, List.get_mem c j hj, hmem⟩

/-- No element of a cycle is ever popped by Kahn's algorithm. -/
theorem cycle_not_popped {fs : List Formula} {out : List Formula}
    {c : List String} (hout : KahnOut fs out) (hc : IsCycle fs c) :
    ∀ (i : Nat) (b : String), (out.map Formula.name)[i]? = some b →
    b ∈ c → False := by
  intro i
  induction i using Nat.strong_induction_on with
  | _ i ih =>
    intro b hbi hbc
    obtain ⟨a, hac, hab⟩ := cycle_pred hc b hbc
    obtain ⟨i1, hlt, hi1⟩ := hout.hord i b hbi a hab
    exact ih i1 hlt a hi1 hac

/-- The output of the full Kahn run inside `topological_sort` satisfies
the pop-order properties. -/
theorem topological_sort_kahn_out (fs : List Formula) (order : List String)
    (hE : (edgesOf fs).length < USIZE) (hord : orderGood order fs) :
    KahnOut fs (kahnLoop (adjOf fs) (fmapOf fs) (fs.length + 1)
      (order.filter fun n => initDegOf fs n == 0) (initDegOf fs) []) :=
  kahnLoop_out fs hE (fs.length + 1) _ _ [] (kahn_initial fs order hE hord)

/-- A successful `topological_sort` returns the Kahn output, which is
complete and sound. -/
theorem sort_ok_out {fs : List Formula} {order : List String}
    {plan : List Formula} (hE : (edgesOf fs).length < USIZE)
    (hord : orderGood order fs)
    (h : topological_sort fs order = .ok plan) :
    KahnOut fs plan ∧ plan.length = fs.length := by
  simp only [topological_sort] at h
  split at h
  · exact absurd h (by simp)
  · rename_i hlen
    have hplan : plan = kahnLoop (adjOf fs) (fmapOf fs) (fs.length + 1)
        (order.filter fun n => initDegOf fs n == 0) (initDegOf fs) [] := by
      simpa using h.symm
    constructor
    · rw [hplan]
      exact topological_sort_kahn_out fs order hE hord
    · rw [hplan]
      omega

/-- When the recorded graph has a cycle, the Kahn output is strictly
shorter than the input and `topological_sort` reports the circular
dependency. -/
theorem sort_cycle_error {fs : List Formula} {order : List String}
    {c : List String} (hE : (edgesOf fs).length < USIZE)
    (hord : orderGood order fs) (hc : IsCycle fs c) :
    topological_sort fs order =
      .error (.DependencyResolution "Circular dependency detected") := by
  have hout := topological_sort_kahn_out fs order hE hord
  obtain ⟨m, hm⟩ := List.exists_mem_of_ne_nil c hc.1
  have hmnames : m ∈ namesOf fs := by
    obtain ⟨a, _, hedge⟩ := cycle_pred hc m hm
    exact (edges_mem_names hedge).2
  have hmout : m ∉ (kahnLoop (adjOf fs) (fmapOf fs) (fs.length + 1)
      (order.filter fun n => initDegOf fs n == 0) (initDegOf fs)
      []).map Formula.name := by
    intro hmem
    obtain ⟨i, hi⟩ := List.getElem?_of_mem hmem
    exact cycle_not_popped hout hc i m hi hm
  have hsub : ((kahnLoop (adjOf fs) (fmapOf fs) (fs.length + 1)
      (order.filter fun n => initDegOf fs n == 0) (initDegOf fs)
      []).map Formula.name).toFinset ⊂ (namesOf fs).toFinset := by
    constructor
    · intro n hn
      rw [List.mem_toFinset] at hn ⊢
      exact hout.hpk n hn
    · intro hcontra
      have := hcontra (List.mem_toFinset.2 hmnames)
      exact hmout (List.mem_toFinset.1 this)
  have hcard := Finset.card_lt_card hsub
  have h1 := List.toFinset_card_of_nodup hout.hpn
  have h2 := List.toFinset_card_le (namesOf fs)
  have h3 : (namesOf fs).length = fs.length := by simp [namesOf]
  have hlen : (kahnLoop (adjOf fs) (fmapOf fs) (fs.length + 1)
      (order.filter fun n => initDegOf fs n == 0) (initDegOf fs)
      []).length ≠ fs.length := by
    have h4 : ((kahnLoop (adjOf fs) (fmapOf fs) (fs.length + 1)
        (order.filter fun n => initDegOf fs n == 0) (initDegOf fs)
        []).map Formula.name).length = (kahnLoop (adjOf fs) (fmapOf fs)
        (fs.length + 1) (order.filter fun n => initDegOf fs n == 0)
        (initDegOf fs) []).length := List.length_map _ _
    omega
  simp only [topological_sort]
  rw [if_pos hlen]

/-- C2: if the dependency graph induced over the expanded formulae
contains a cycle, `DependencyResolver::resolve` fails with the
`DependencyResolution` circular-dependency error (Kahn's output is shorter
than its input), for every hash-map iteration order; it never returns a
plan for a cyclic graph. -/
theorem resolve_cycle_error (fuel : Nat)
    (lookup : String → Option Formula) (root : Formula)
    (order : List String) (fs : List Formula) (c : List String)
    (hexp : resolveExpand fuel lookup root = some (.ok fs))
    (hE : (edgesOf fs).length < USIZE) (hord : orderGood order fs)
    (hc : IsCycle fs c) :
    resolve fuel lookup root order =
      some (.error (.DependencyResolution "Circular dependency detected")) := by
  unfold resolve
  rw [hexp]
  show some (topological_sort fs order) = _
  rw [sort_cycle_error hE hord hc]

/-- Witness for C2 at a concrete two-cycle: `a` and `b` depend on each
other, the expansion succeeds, and resolve reports the circular
dependency. -/
theorem resolve_cycle_error_witness :
    resolveExpand 10
      (fun n => if n = "a" then some ⟨"a", "1", none, none, none, [],
          [⟨"b", none, false, false⟩], [], [], [], none, none, none, []⟩
        else if n = "b" then some ⟨"b", "1", none, none, none, [],
          [⟨"a", none, false, false⟩], [], [], [], none, none, none, []⟩
        else none)
      ⟨"r", "1", none, none, none, [], [⟨"a", none, false, false⟩], [], [],
        [], none, none, none, []⟩ =
      some (.ok [⟨"a", "1", none, none, none, [],
        [⟨"b", none, false, false⟩], [], [], [], none, none, none, []⟩,
        ⟨"b", "1", none, none, none, [], [⟨"a", none, false, false⟩], [],
        [], [], none, none, none, []⟩]) ∧
    IsCycle [⟨"a", "1", none, none, none, [], [⟨"b", none, false, false⟩],
      [], [], [], none, none, none, []⟩,
      ⟨"b", "1", none, none, none, [], [⟨"a", none, false, false⟩], [], [],
      [], none, none, none, []⟩] ["a", "b"] ∧
    resolve 10
      (fun n => if n = "a" then some ⟨"a", "1", none, none, none, [],
          [⟨"b", none, false, false⟩], [], [], [], none, none, none, []⟩
        else if n = "b" then some ⟨"b", "1", none, none, none, [],
          [⟨"a", none, false, false⟩], [], [], [], none, none, none, []⟩
        else none)
      ⟨"r", "1", none, none, none, [], [⟨"a", none, false, false⟩], [], [],
        [], none, none, none, []⟩ ["a", "b"] =
      some (.error (.DependencyResolution "Circular dependency detected")) :=
  ⟨rfl, ⟨by decide, by decide⟩,
   resolve_cycle_error 10 _ _ ["a", "b"] _ ["a", "b"] rfl (by decide)
     ⟨by decide, by decide, by decide⟩ ⟨by decide, by decide⟩⟩

/-- C1 (amended): in every install plan returned by
`DependencyResolver::resolve`, if plan member `X` lists plan member `Y`
among the entries of its runtime `dependencies` vector (optional or not;
`build_dependencies` entries are NOT edges of the sort), then `Y` precedes
`X` in the plan.  The root-exclusion part of the original claim is
dropped: the root can itself appear in the plan (see the counterexample). -/
theorem resolve_plan_respects_deps (fuel : Nat)
    (lookup : String → Option Formula) (root : Formula)
    (order : List String) (fs plan : List Formula)
    (hexp : resolveExpand fuel lookup root = some (.ok fs))
    (hE : (edgesOf fs).length < USIZE) (hord : orderGood order fs)
    (hres : resolve fuel lookup root order = some (.ok plan))
    (i j : Nat) (X Y : Formula)
    (hX : plan[i]? = some X) (hY : plan[j]? = some Y)
    (hdep : Y.name ∈ X.dependencies.map Dependency.name) : j < i := by
  have hsort : topological_sort fs order = .ok plan := by
    unfold resolve at hres
    rw [hexp] at hres
    simpa using hres
  obtain ⟨hout, _⟩ := sort_ok_out hE hord hsort
  have hXi : (plan.map Formula.name)[i]? = some X.name := by
    rw [List.getElem?_map, hX]
    rfl
  have hYj : (plan.map Formula.name)[j]? = some Y.name := by
    rw [List.getElem?_map, hY]
    rfl
  have hXmem : X ∈ plan := List.getElem?_mem hX
  have hYmem : Y ∈ plan := List.getElem?_mem hY
  obtain ⟨-, hXfs⟩ := fmapOf_spec (hout.hmap X hXmem)
  have hYnames : Y.name ∈ namesOf fs :=
    hout.hpk Y.name (List.mem_map.2 ⟨Y, hYmem, rfl⟩)
  obtain ⟨d, hdmem, hdname⟩ := List.mem_map.1 hdep
  have hedge : (Y.name, X.name) ∈ edgesOf fs := by
    have := mem_edges_of_dep hXfs hdmem (by rwa [hdname])
    rwa [hdname] at this
  obtain ⟨i1, hi1lt, hi1⟩ := hout.hord i X.name hXi Y.name hedge
  obtain ⟨hi1len, -⟩ := List.getElem?_eq_some.1 hi1
  have hij : i1 = j :=
    List.getElem?_inj hi1len hout.hpn (hi1.trans hYj.symm)
  omega

/-- Counterexample to C1.  Part 1: the root formula itself can appear in
the plan — with root `r` whose build dependency `a` runtime-depends back
on `r`, the plan is `[r, a]` under either iteration order of the
two-element key set, and its first member is the root formula itself.
Part 2: `build_dependencies` do not induce sort edges — with root `s`
depending on `x` and `y` where `x` build-depends on `y`, the seed order
`["x", "y"]` yields the plan `[x, y]`, in which `x` precedes its own
non-optional build dependency `y`. -/
theorem resolve_plan_cex :
    (resolve 10
      (fun n => if n = "a" then some ⟨"a", "1", none, none, none, [],
          [⟨"r", none, false, false⟩], [], [], [], none, none, none, []⟩
        else if n = "r" then some ⟨"r", "1", none, none, none, [], [],
          [⟨"a", none, false, false⟩], [], [], none, none, none, []⟩
        else none)
      ⟨"r", "1", none, none, none, [], [], [⟨"a", none, false, false⟩], [],
        [], none, none, none, []⟩ ["a", "r"] =
      some (.ok [⟨"r", "1", none, none, none, [], [],
        [⟨"a", none, false, false⟩], [], [], none, none, none, []⟩,
        ⟨"a", "1", none, none, none, [], [⟨"r", none, false, false⟩], [],
        [], [], none, none, none, []⟩])) ∧
    (resolve 10
      (fun n => if n = "a" then some ⟨"a", "1", none, none, none, [],
          [⟨"r", none, false, false⟩], [], [], [], none, none, none, []⟩
        else if n = "r" then some ⟨"r", "1", none, none, none, [], [],
          [⟨"a", none, false, false⟩], [], [], none, none, none, []⟩
        else none)
      ⟨"r", "1", none, none, none, [], [], [⟨"a", none, false, false⟩], [],
        [], none, none, none, []⟩ ["r", "a"] =
      some (.ok [⟨"r", "1", none, none, none, [], [],
        [⟨"a", none, false, false⟩], [], [], none, none, none, []⟩,
        ⟨"a", "1", none, none, none, [], [⟨"r", none, false, false⟩], [],
        [], [], none, none, none, []⟩])) ∧
    (resolve 10
      (fun n => if n = "x" then some ⟨"x", "1", none, none, none, [], [],
          [⟨"y", none, false, false⟩], [], [], none, none, none, []⟩
        else if n = "y" then some ⟨"y", "1", none, none, none, [], [], [],
          [], [], none, none, none, []⟩
        else none)
      ⟨"s", "1", none, none, none, [],
        [⟨"x", none, false, false⟩, ⟨"y", none, false, false⟩], [], [], [],
        none, none, none, []⟩ ["x", "y"] =
      some (.ok [⟨"x", "1", none, none, none, [], [],
        [⟨"y", none, false, false⟩], [], [], none, none, none, []⟩,
        ⟨"y", "1", none, none, none, [], [], [], [], [], none, none, none,
        []⟩])) ∧
    "y" ∈ (List.map Dependency.name
      [⟨"y", none, false, false⟩] : List String) :=
  ⟨rfl, rfl, rfl, by decide⟩

/-- Witness for the amended C1 at a concrete input: the plan for a chain
`r -> a -> b` is `[b, a]`, and the theorem yields that `b` (the
dependency) precedes `a`. -/
theorem resolve_plan_respects_deps_witness :
    resolve 10
      (fun n => if n = "a" then some ⟨"a", "1", none, none, none, [],
          [⟨"b", none, false, false⟩], [], [], [], none, none, none, []⟩
        else if n = "b" then some ⟨"b", "1", none, none, none, [], [], [],
          [], [], none, none, none, []⟩
        else none)
      ⟨"r", "1", none, none, none, [], [⟨"a", none, false, false⟩], [], [],
        [], none, none, none, []⟩ ["a", "b"] =
      some (.ok [⟨"b", "1", none, none, none, [], [], [], [], [], none,
        none, none, []⟩,
        ⟨"a", "1", none, none, none, [], [⟨"b", none, false, false⟩], [],
        [], [], none, none, none, []⟩]) ∧
    (0 : Nat) < 1 :=
  ⟨rfl,
   resolve_plan_respects_deps 10
     (fun n => if n = "a" then some ⟨"a", "1", none, none, none, [],
         [⟨"b", none, false, false⟩], [], [], [], none, none, none, []⟩
       else if n = "b" then some ⟨"b", "1", none, none, none, [], [], [],
         [], [], none, none, none, []⟩
       else none)
     ⟨"r", "1", none, none, none, [], [⟨"a", none, false, false⟩], [], [],
       [], none, none, none, []⟩ ["a", "b"]
     [⟨"a", "1", none, none, none, [], [⟨"b", none, false, false⟩], [], [],
       [], none, none, none, []⟩,
      ⟨"b", "1", none, none, none, [], [], [], [], [], none, none, none,
       []⟩]
     [⟨"b", "1", none, none, none, [], [], [], [], [], none, none, none,
       []⟩,
      ⟨"a", "1", none, none, none, [], [⟨"b", none, false, false⟩], [], [],
       [], none, none, none, []⟩]
     rfl (by decide) ⟨by decide, by decide, by decide⟩ rfl 1 0
     ⟨"a", "1", none, none, none, [], [⟨"b", none, false, false⟩], [], [],
       [], none, none, none, []⟩
     ⟨"b", "1", none, none, none, [], [], [], [], [], none, none, none, []⟩
     rfl rfl (by decide)⟩

/-- The variations loop is first-success search. -/
theorem tryVariationsLoop_eq_findSome (lookup : String → Option Formula) :
    ∀ l : List String, tryVariationsLoop lookup l = l.findSome? lookup
  | [] => rfl
  | v :: rest => by
    unfold tryVariationsLoop
    rw [List.findSome?_cons]
    cases lookup v with
    | some f => rfl
    | none => exact tryVariationsLoop_eq_findSome lookup rest

/-- `check_conflicts` only ever produces conflict-shaped errors. -/
theorem check_conflicts_error_shape (f : Formula) :
    ∀ (rs : List Formula) (e : NitroError),
    check_conflicts f rs = .error e →
    ∃ a b, e = .DependencyResolution (a ++ " conflicts with " ++ b)
  | [], e, h => absurd h (by simp [check_conflicts])
  | r :: rest, e, h => by
    unfold check_conflicts at h
    by_cases h1 : f.conflicts.contains r.name
    · rw [if_pos h1] at h
      exact ⟨f.name, r.name, by simpa using h.symm⟩
    · rw [if_neg h1] at h
      by_cases h2 : r.conflicts.contains f.name
      · rw [if_pos h2] at h
        exact ⟨r.name, f.name, by simpa using h.symm⟩
      · rw [if_neg h2] at h
        exact check_conflicts_error_shape f rest e h

/-- The expansion loop's only errors are conflict errors. -/
theorem expand_error_shape (lookup : String → Option Formula) :
    ∀ (fuel : Nat) (queue : List Dependency) (seen : List String)
      (resolved : List Formula) (e : NitroError),
    resolveExpandLoop lookup fuel queue seen resolved = some (.error e) →
    ∃ a b, e = .DependencyResolution (a ++ " conflicts with " ++ b) := by
  intro fuel
  induction fuel with
  | zero =>
    intro queue seen resolved e h
    exact absurd h (by simp [resolveExpandLoop])
  | succ fuel ih =>
    intro queue seen resolved e h
    cases queue with
    | nil => exact absurd h (by simp [resolveExpandLoop])
    | cons d qs =>
      unfold resolveExpandLoop at h
      by_cases hseen : seen.contains d.name
      · rw [if_pos hseen] at h
        exact ih qs seen resolved e h
      · rw [if_neg hseen] at h
        cases hld : lookupDep lookup d.name with
        | none =>
          rw [hld] at h
          exact ih qs (seen ++ [d.name]) resolved e h
        | some f =>
          rw [hld] at h
          simp only [] at h
          cases hcc : check_conflicts f resolved with
          | error e2 =>
            rw [hcc] at h
            have he : e2 = e := by simpa using h
            exact he ▸ check_conflicts_error_shape f resolved e2 hcc
          | ok u =>
            cases u
            rw [hcc] at h
            exact ih _ _ _ e h

/-- `topological_sort` produces only the circular-dependency error. -/
theorem sort_error_shape {fs : List Formula} {order : List String}
    {e : NitroError} (h : topological_sort fs order = .error e) :
    e = .DependencyResolution "Circular dependency detected" := by
  simp only [topological_sort] at h
  split at h
  · simpa using h.symm
  · exact absurd h (by simp)

/-- C8: when a dependency name fails to resolve, the lookup tries the
substitutions in their listed order and accepts the first that resolves
(first-success over the variations vector); a dependency for which all of
them fail is skipped (marked seen, queue advanced, nothing resolved,
no error), and `resolve` as a whole can only fail with a conflict or
cycle `DependencyResolution` error — never because of an unresolvable
dependency. -/
theorem resolver_unresolvable_skipped :
    (∀ (lookup : String → Option Formula) (n : String),
      lookupDep lookup n = (n :: variationsOf n).findSome? lookup) ∧
    (∀ (lookup : String → Option Formula) (fuel : Nat) (d : Dependency)
        (qs : List Dependency) (seen : List String)
        (resolved : List Formula),
      seen.contains d.name = false → lookupDep lookup d.name = none →
      resolveExpandLoop lookup (fuel + 1) (d :: qs) seen resolved =
        resolveExpandLoop lookup fuel qs (seen ++ [d.name]) resolved) ∧
    ∀ (fuel : Nat) (lookup : String → Option Formula) (root : Formula)
      (order : List String) (e : NitroError),
      resolve fuel lookup root order = some (.error e) →
      (∃ a b, e = .DependencyResolution (a ++ " conflicts with " ++ b)) ∨
      e = .DependencyResolution "Circular dependency detected" := by
  refine ⟨?_, ?_, ?_⟩
  · intro lookup n
    unfold lookupDep
    rw [List.findSome?_cons]
    cases lookup n with
    | some f => rfl
    | none => exact tryVariationsLoop_eq_findSome lookup (variationsOf n)
  · intro lookup fuel d qs seen resolved hseen hld
    conv_lhs => simp only [resolveExpandLoop]
    rw [if_neg (by rw [hseen]; simp), hld]
  · intro fuel lookup root order e h
    unfold resolve at h
    cases hexp : resolveExpand fuel lookup root with
    | none => rw [hexp] at h; exact absurd h (by simp)
    | some r =>
      rw [hexp] at h
      cases r with
      | error e2 =>
        have he : e2 = e := by simpa using h
        exact Or.inl (he ▸ expand_error_shape lookup fuel _ [] [] e2 hexp)
      | ok fs =>
        have hs : topological_sort fs order = .error e := by simpa using h
        exact Or.inr (sort_error_shape hs)

/-- Witness for C8: a concrete run in which the dependency "zzz" resolves
neither directly nor through any substitution, is skipped, and resolve
still returns a plan; and a concrete conflicting run whose error has the
conflict shape. -/
theorem resolver_unresolvable_skipped_witness :
    lookupDep (fun n => if n = "a" then some ⟨"a", "1", none, none, none,
        [], [], [], [], [], none, none, none, []⟩ else none) "zzz" =
      (("zzz" : String) :: variationsOf "zzz").findSome?
        (fun n => if n = "a" then some ⟨"a", "1", none, none, none, [], [],
          [], [], [], none, none, none, []⟩ else none) ∧
    resolveExpandLoop
      (fun n => if n = "a" then some ⟨"a", "1", none, none, none, [], [],
        [], [], [], none, none, none, []⟩ else none)
      10 [⟨"zzz", none, false, false⟩, ⟨"a", none, false, false⟩] [] [] =
      resolveExpandLoop
        (fun n => if n = "a" then some ⟨"a", "1", none, none, none, [], [],
          [], [], [], none, none, none, []⟩ else none)
        9 [⟨"a", none, false, false⟩] ["zzz"] [] ∧
    resolve 10
      (fun n => if n = "a" then some ⟨"a", "1", none, none, none, [], [],
        [], [], [], none, none, none, []⟩ else none)
      ⟨"r", "1", none, none, none, [],
        [⟨"zzz", none, false, false⟩, ⟨"a", none, false, false⟩], [], [],
        [], none, none, none, []⟩ ["a"] =
      some (.ok [⟨"a", "1", none, none, none, [], [], [], [], [], none,
        none, none, []⟩]) ∧
    ((∃ a b, NitroError.DependencyResolution "a conflicts with b" =
        .DependencyResolution (a ++ " conflicts with " ++ b)) ∨
      NitroError.DependencyResolution "a conflicts with b" =
        .DependencyResolution "Circular dependency detected") :=
  ⟨resolver_unresolvable_skipped.1 _ "zzz",
   resolver_unresolvable_skipped.2.1 _ 9 ⟨"zzz", none, false, false⟩
     [⟨"a", none, false, false⟩] [] [] rfl rfl,
   rfl,
   resolver_unresolvable_skipped.2.2 10
     (fun n => if n = "a" then some ⟨"a", "1", none, none, none, [], [],
       [], [], ["b"], none, none, none, []⟩
      else if n = "b" then some ⟨"b", "1", none, none, none, [], [], [],
       [], [], none, none, none, []⟩ else none)
     ⟨"r", "1", none, none, none, [],
       [⟨"b", none, false, false⟩, ⟨"a", none, false, false⟩], [], [], [],
       none, none, none, []⟩ ["a", "b"]
     (.DependencyResolution "a conflicts with b") rfl⟩

/-- With no recorded edges, the Kahn loop pops the queue front to back and
appends the formula-map entries in queue order. -/
theorem kahnLoop_empty_adj (fs : List Formula)
    (hedges : edgesOf fs = []) (fm : String → Option Formula) :
    ∀ (queue : List String) (fuel : Nat) (deg : String → Nat)
      (sorted : List Formula), queue.length ≤ fuel →
    kahnLoop (adjOf fs) fm fuel queue deg sorted =
      sorted ++ queue.filterMap fm := by
  intro queue
  induction queue with
  | nil =>
    intro fuel deg sorted hf
    cases fuel <;> simp [kahnLoop]
  | cons q qs ih =>
    intro fuel deg sorted hf
    obtain ⟨fuel', rfl⟩ : ∃ f2, fuel = f2 + 1 :=
      ⟨fuel - 1, by simp at hf; omega⟩
    have hadj : adjOf fs q = [] := by
      unfold adjOf
      rw [hedges]
      rfl
    have hlen : qs.length ≤ fuel' := by simp at hf; omega
    cases hq : fm q with
    | some f =>
      have hstep : kahnLoop (adjOf fs) fm (fuel' + 1) (q :: qs) deg
          sorted = kahnLoop (adjOf fs) fm fuel' qs deg (sorted ++ [f]) := by
        simp only [kahnLoop, hadj, processDeps]
        rw [hq]
      rw [hstep, ih fuel' deg (sorted ++ [f]) hlen]
      simp [List.filterMap_cons, hq]
    | none =>
      have hstep : kahnLoop (adjOf fs) fm (fuel' + 1) (q :: qs) deg
          sorted = kahnLoop (adjOf fs) fm fuel' qs deg sorted := by
        simp only [kahnLoop, hadj, processDeps]
        rw [hq]
      rw [hstep, ih fuel' deg sorted hlen]
      simp [List.filterMap_cons, hq]

/-- A `filterMap` by an everywhere-defined function keeps the length. -/
theorem length_filterMap_of_isSome {α β : Type} (f : α → Option β) :
    ∀ l : List α, (∀ x ∈ l, (f x).isSome) →
    (l.filterMap f).length = l.length
  | [], _ => rfl
  | x :: t, h => by
    cases hx : f x with
    | none =>
      have := h x (by simp)
      rw [hx] at this
      simp at this
    | some b =>
      rw [List.filterMap_cons, hx]
      simp only [List.length_cons]
      rw [length_filterMap_of_isSome f t (fun y hy => h y (by simp [hy]))]

/-- A faithful iteration order has as many entries as there are distinct
keys; with pairwise-distinct formula names that is the number of
formulae. -/
theorem orderGood_length {order : List String} {fs : List Formula}
    (hnd : (namesOf fs).Nodup) (hord : orderGood order fs) :
    order.length = fs.length := by
  obtain ⟨hond, hc1, hc2⟩ := hord
  have hset : order.toFinset = (namesOf fs).toFinset := by
    ext n
    simp only [List.mem_toFinset]
    exact ⟨fun h => hc2 n h, fun h => hc1 n h⟩
  have h1 := List.toFinset_card_of_nodup hond
  have h2 := List.toFinset_card_of_nodup hnd
  have h3 : (namesOf fs).length = fs.length := by simp [namesOf]
  have h4 := congrArg Finset.card hset
  omega

/-- C9 (amended): the order of the plan is determined by the hash map's
iteration order over the in-degree map: with an edge-free graph (every
pair unconstrained), `topological_sort` returns the formulae exactly in
the seed order — there is no lexicographic tie-breaking. -/
theorem sort_ties_follow_seed_order (fs : List Formula)
    (order : List String) (hnd : (namesOf fs).Nodup)
    (hord : orderGood order fs) (hedges : edgesOf fs = []) :
    topological_sort fs order = .ok (order.filterMap (fmapOf fs)) := by
  have hdeg : ∀ n, initDegOf fs n = 0 := by
    intro n
    unfold initDegOf
    rw [hedges]
    rfl
  have hseeds : (order.filter fun n => initDegOf fs n == 0) = order :=
    List.filter_eq_self.2 (fun n _ => by simp [hdeg n])
  have hlenord := orderGood_length hnd hord
  have hfm : ∀ n ∈ order, (fmapOf fs n).isSome := by
    intro n hn
    obtain ⟨f, hf⟩ := fmapOf_total (hord.2.2 n hn)
    simp [hf]
  have hflen : (order.filterMap (fmapOf fs)).length = order.length :=
    length_filterMap_of_isSome (fmapOf fs) order hfm
  simp only [topological_sort]
  rw [hseeds, kahnLoop_empty_adj fs hedges (fmapOf fs) order
    (fs.length + 1) (initDegOf fs) [] (by omega)]
  rw [if_neg (by simp; omega)]
  simp

/-- Witness for the amended C9: with two independent formulae and seed
order `["y", "x"]`, the plan follows the seed order (`y` first), not the
lexicographic one. -/
theorem sort_ties_follow_seed_order_witness :
    topological_sort
      [⟨"x", "1", none, none, none, [], [], [], [], [], none, none, none,
        []⟩,
       ⟨"y", "1", none, none, none, [], [], [], [], [], none, none, none,
        []⟩] ["y", "x"] =
      .ok (["y", "x"].filterMap (fmapOf
        [⟨"x", "1", none, none, none, [], [], [], [], [], none, none, none,
          []⟩,
         ⟨"y", "1", none, none, none, [], [], [], [], [], none, none, none,
          []⟩])) :=
  sort_ties_follow_seed_order _ ["y", "x"] (by decide)
    ⟨by decide, by decide, by decide⟩ (by decide)

/-- Counterexample to C9: the same inputs under the two possible
iteration orders of the two-element in-degree map produce different
plans, and under the order `["y", "x"]` the lexicographically smaller
name `x` comes second although no ordering constraint exists (the
recorded edge list is empty): Kahn's queue ties are broken by hash-map
iteration order, not lexicographically, so the plan is not a single
deterministic sequence. -/
theorem resolver_not_deterministic_cex :
    (resolve 10
      (fun n => if n = "x" then some ⟨"x", "1", none, none, none, [], [],
          [], [], [], none, none, none, []⟩
        else if n = "y" then some ⟨"y", "1", none, none, none, [], [], [],
          [], [], none, none, none, []⟩
        else none)
      ⟨"s", "1", none, none, none, [],
        [⟨"x", none, false, false⟩, ⟨"y", none, false, false⟩], [], [], [],
        none, none, none, []⟩ ["x", "y"] =
      some (.ok [⟨"x", "1", none, none, none, [], [], [], [], [], none,
        none, none, []⟩,
        ⟨"y", "1", none, none, none, [], [], [], [], [], none, none, none,
        []⟩])) ∧
    (resolve 10
      (fun n => if n = "x" then some ⟨"x", "1", none, none, none, [], [],
          [], [], [], none, none, none, []⟩
        else if n = "y" then some ⟨"y", "1", none, none, none, [], [], [],
          [], [], none, none, none, []⟩
        else none)
      ⟨"s", "1", none, none, none, [],
        [⟨"x", none, false, false⟩, ⟨"y", none, false, false⟩], [], [], [],
        none, none, none, []⟩ ["y", "x"] =
      some (.ok [⟨"y", "1", none, none, none, [], [], [], [], [], none,
        none, none, []⟩,
        ⟨"x", "1", none, none, none, [], [], [], [], [], none, none, none,
        []⟩])) ∧
    ([(⟨"x", "1", none, none, none, [], [], [], [], [], none, none, none,
        []⟩ : Formula),
      ⟨"y", "1", none, none, none, [], [], [], [], [], none, none, none,
        []⟩] ≠
      [⟨"y", "1", none, none, none, [], [], [], [], [], none, none, none,
        []⟩,
       ⟨"x", "1", none, none, none, [], [], [], [], [], none, none, none,
        []⟩]) ∧
    edgesOf [⟨"x", "1", none, none, none, [], [], [], [], [], none, none,
      none, []⟩,
      ⟨"y", "1", none, none, none, [], [], [], [], [], none, none, none,
      []⟩] = [] ∧
    ("x" : String) < "y" :=
  ⟨rfl, rfl, by decide, rfl, by rw [String.lt_iff_toList_lt]; decide⟩
